import Mathlib

/-!
# Verification of `static/js/main.js`

A shallow embedding of the utility object `Utils` of `src/static/js/main.js`
(date formatting, relative time, the `fetch` wrapper, toast and confirm
helpers, and the global error listeners installed on `DOMContentLoaded`),
together with theorems about it.

JavaScript strings are modelled as `List Char`, integral numbers as `Int`
(with `NaN` as `none` where a number may be `NaN`), promises by their
settled outcome (`Except`), plain objects by their own properties and their
prototype, and the document as a forest of elements with node identity.
The HTML parser is not modelled: `showToast` and `confirm` describe the
document only for texts free of markup and mark the page otherwise.
-/

set_option autoImplicit false

namespace MainJs

/-! ## JavaScript values and strings -/

/-- The JavaScript values that can be handed to the date helpers.  Numbers are
integral (time values in milliseconds); `nan` is the number `NaN`; `date t` is a
`Date` object carrying time value `t` (`none` for an invalid date). -/
inductive JsValue where
  | undefined
  | null
  | bool (b : Bool)
  | number (n : Int)
  | nan
  | string (s : List Char)
  | date (t : Option Int)
  deriving DecidableEq, Repr

/-- The abstract operation `ToBoolean`, used by `!date`. -/
def JsValue.toBoolean : JsValue → Bool
  | .undefined => false
  | .null => false
  | .bool b => b
  | .number n => n != 0
  | .nan => false
  | .string s => !s.isEmpty
  | .date _ => true

/-- Decimal numeral of a natural number (`String(n)` for a non-negative integer). -/
def decimal (n : Nat) : List Char := Nat.toDigits 10 n

/-- `String(x)` for an integral number, or for `NaN` (`none`). -/
def numberToString : Option Int → List Char
  | none => ['N', 'a', 'N']
  | some (Int.ofNat n) => decimal n
  | some (Int.negSucc n) => '-' :: decimal (n + 1)

/-- `String.prototype.padStart(targetLength, fill)` for a one-character fill. -/
def padStart (s : List Char) (targetLength : Nat) (fill : Char) : List Char :=
  List.replicate (targetLength - s.length) fill ++ s

/-- `String.prototype.indexOf`-style search: the least index at which `pat` occurs in
the string, if any. -/
def indexOf (pat : List Char) : List Char → Option Nat
  | [] => if pat.isPrefixOf [] then some 0 else none
  | c :: s => if pat.isPrefixOf (c :: s) then some 0 else (indexOf pat s).map (· + 1)

/-- The abstract operation `GetSubstitution` for a string pattern (no capture
groups): `$$`, `$&`, dollar-backtick and dollar-apostrophe are expanded, every
other character is copied. -/
def getSubstitution (matched before after : List Char) : List Char → List Char
  | [] => []
  | [c] => [c]
  | c :: d :: rest =>
    if c = '$' then
      if d = '$' then '$' :: getSubstitution matched before after rest
      else if d = '&' then matched ++ getSubstitution matched before after rest
      else if d = Char.ofNat 96 then before ++ getSubstitution matched before after rest
      else if d = Char.ofNat 39 then after ++ getSubstitution matched before after rest
      else c :: getSubstitution matched before after (d :: rest)
    else c :: getSubstitution matched before after (d :: rest)

/-- `String.prototype.replace(pat, rep)` with a string pattern: only the first
occurrence of `pat` is replaced. -/
def jsReplace (pat rep : List Char) (s : List Char) : List Char :=
  match indexOf pat s with
  | none => s
  | some i =>
    s.take i ++ getSubstitution pat (s.take i) (s.drop (i + pat.length)) rep
      ++ s.drop (i + pat.length)

/-! ## Dates -/

/-- Local calendar fields of a time value, as returned by `getFullYear`,
`getMonth` (0-based), `getDate`, `getHours`, `getMinutes`, `getSeconds`. -/
structure DateParts where
  year : Int
  month : Nat
  date : Nat
  hours : Nat
  minutes : Nat
  seconds : Nat
  deriving DecidableEq, Repr

/-- What the script takes from its host: the clock, the host-defined `Date.parse`,
and the local-time calendar of a time value. -/
structure Host where
  now : Int
  parse : List Char → Option Int
  localTime : Int → DateParts

/-- `TimeClip`: time values beyond ±8.64e15 ms are invalid. -/
def timeClip (t : Int) : Option Int :=
  if t.natAbs ≤ 8640000000000000 then some t else none

/-- Time value of `new Date(v)`; `none` is an invalid date. -/
def newDate (h : Host) : JsValue → Option Int
  | .undefined => none
  | .null => some 0
  | .bool b => some (if b then 1 else 0)
  | .number n => timeClip n
  | .nan => none
  | .string s => (h.parse s).bind timeClip
  | .date t => t

/-- `CONFIG.DATE_FORMAT`, also the default of the `format` parameter. -/
def DATE_FORMAT : List Char := "YYYY-MM-DD".toList

/-- `CONFIG.TIME_FORMAT`. -/
def TIME_FORMAT : List Char := "HH:mm:ss".toList

/-- The six replacement values computed by `formatDate` from the date `d`:
`year` unpadded, the others padded to width 2. -/
def fieldValues (h : Host) (d : Option Int) : List (List Char × List Char) :=
  let p := d.map h.localTime
  [ ("YYYY".toList, numberToString (p.map (·.year))),
    ("MM".toList, padStart (numberToString (p.map (fun q => (q.month : Int) + 1))) 2 '0'),
    ("DD".toList, padStart (numberToString (p.map (fun q => (q.date : Int)))) 2 '0'),
    ("HH".toList, padStart (numberToString (p.map (fun q => (q.hours : Int)))) 2 '0'),
    ("mm".toList, padStart (numberToString (p.map (fun q => (q.minutes : Int)))) 2 '0'),
    ("ss".toList, padStart (numberToString (p.map (fun q => (q.seconds : Int)))) 2 '0') ]

/-- The chain `format.replace(t₁, v₁).replace(t₂, v₂)…`. -/
def replaceChain (toks : List (List Char × List Char)) (format : List Char) : List Char :=
  toks.foldl (fun s t => jsReplace t.1 t.2 s) format

/-- `Utils.formatDate(date, format = 'YYYY-MM-DD')`. -/
def formatDate (h : Host) (date : JsValue) (format : List Char := DATE_FORMAT) : List Char :=
  if !date.toBoolean then []
  else replaceChain (fieldValues h (newDate h date)) format

/-- `Utils.formatRelativeTime(date)`.  `diff` is `NaN` when the target date is
invalid, and then every comparison is false. -/
def formatRelativeTime (h : Host) (date : JsValue) : List Char :=
  match newDate h date with
  | none => formatDate h date
  | some target =>
    let diff := h.now - target
    let minutes := Int.fdiv diff 60000
    let hours := Int.fdiv diff 3600000
    let days := Int.fdiv diff 86400000
    if minutes < 1 then "刚刚".toList
    else if minutes < 60 then numberToString (some minutes) ++ "分钟前".toList
    else if hours < 24 then numberToString (some hours) ++ "小时前".toList
    else if days < 7 then numberToString (some days) ++ "天前".toList
    else formatDate h date

/-! ### A sample host: UTC -/

/-- Civil date of a day number (days since 1970-01-01), proleptic Gregorian. -/
def civilFromDays (days : Int) : Int × Nat × Nat :=
  let z := days + 719468
  let era := z / 146097
  let doe := z - era * 146097
  let yoe := (doe - doe / 1460 + doe / 36524 - doe / 146096) / 365
  let doy := doe - (365 * yoe + yoe / 4 - yoe / 100)
  let mp := (5 * doy + 2) / 153
  let d := doy - (153 * mp + 2) / 5 + 1
  let m := if mp < 10 then mp + 3 else mp - 9
  (yoe + era * 400 + (if m ≤ 2 then 1 else 0), m.toNat, d.toNat)

/-- Calendar fields of a time value in UTC. -/
def utcTime (t : Int) : DateParts :=
  let c := civilFromDays (t / 86400000)
  let r := t % 86400000
  { year := c.1, month := c.2.1 - 1, date := c.2.2,
    hours := (r / 3600000).toNat, minutes := (r / 60000 % 60).toNat,
    seconds := (r / 1000 % 60).toNat }

/-- A host whose local time zone is UTC, whose clock reads `now`, and whose
`Date.parse` recognises no string. -/
def utcHost (now : Int) : Host :=
  { now := now, parse := fun _ => none, localTime := utcTime }

/-! ### Simultaneous substitution (the specification of the replacement chain) -/

/-- The six tokens, in the order in which `formatDate` replaces them. -/
def TOKENS : List (List Char) :=
  ["YYYY".toList, "MM".toList, "DD".toList, "HH".toList, "mm".toList, "ss".toList]

/-- Whether the leftmost occurrence of `q` in `f` starts at index `i`. -/
def startsAt (q f : List Char) (i : Nat) : Bool := indexOf q f == some i

/-- Whether index `i` lies inside, but not at the start of, the leftmost occurrence of
`q` in `f`. -/
def coveredBy (q f : List Char) (i : Nat) : Bool :=
  match indexOf q f with
  | some j => decide (j < i) && decide (i < j + q.length)
  | none => false

/-- The token of `toks` whose leftmost occurrence in `f` starts at index `i`. -/
def tokenStartingAt (toks : List (List Char × List Char)) (f : List Char) (i : Nat) :
    Option (List Char × List Char) :=
  toks.find? (fun t => startsAt t.1 f i)

/-- Whether index `i` lies inside, but not at the start of, the leftmost occurrence
in `f` of some token of `toks`. -/
def insideToken (toks : List (List Char × List Char)) (f : List Char) (i : Nat) : Bool :=
  toks.any (fun t => coveredBy t.1 f i)

/-- What index `i` of `f` contributes to the result: the value of the token whose
leftmost occurrence starts there, nothing if `i` is inside such an occurrence, and
the character `f[i]` otherwise. -/
def substituteAt (toks : List (List Char × List Char)) (f : List Char) (i : Nat) : List Char :=
  match tokenStartingAt toks f i with
  | some t => t.2
  | none => if insideToken toks f i then [] else f[i]?.toList

/-- The string obtained from `f` by replacing, for each token, only the leftmost
occurrence of that token in the original `f` by its value, every other character
being kept. -/
def substituteLeftmost (toks : List (List Char × List Char)) (f : List Char) : List Char :=
  (List.range f.length).flatMap (substituteAt toks f)

/-- The six values as the specification words them, for calendar fields `p` with
a non-negative year. -/
def tokenValues (p : DateParts) : List (List Char × List Char) :=
  [ ("YYYY".toList, decimal p.year.toNat),
    ("MM".toList, padStart (decimal (p.month + 1)) 2 '0'),
    ("DD".toList, padStart (decimal p.date) 2 '0'),
    ("HH".toList, padStart (decimal p.hours) 2 '0'),
    ("mm".toList, padStart (decimal p.minutes) 2 '0'),
    ("ss".toList, padStart (decimal p.seconds) 2 '0') ]

/-- Shape `dddd-dd-dd`. -/
def isDateShape : List Char → Bool
  | [a, b, c, d, e, f, g, h, i, j] =>
    a.isDigit && b.isDigit && c.isDigit && d.isDigit && e == '-' &&
    f.isDigit && g.isDigit && h == '-' && i.isDigit && j.isDigit
  | _ => false

/-- Characters that can occur in a substituted value. -/
def isPlain (c : Char) : Bool := c.isDigit || c == '-' || c == 'N' || c == 'a'

/-- The letters used by the six tokens. -/
def tokenLetters : List Char := ['Y', 'M', 'D', 'H', 'm', 's']

/-- Separation of a token `(p, v)` from the tokens `ts` replaced after it. -/
def SepFrom (p v : List Char) (ts : List (List Char × List Char)) : Prop :=
  ∀ t ∈ ts, t.1 ≠ [] ∧ (∀ c ∈ p, c ∉ t.1) ∧ (∀ c ∈ v, c ∉ t.1)

/-- Tokens are separated: each pattern and value is non-empty, values contain no `$`,
and no later pattern shares a character with an earlier pattern or value. -/
def Separated : List (List Char × List Char) → Prop
  | [] => True
  | t :: ts => t.1 ≠ [] ∧ t.2 ≠ [] ∧ '$' ∉ t.2 ∧ SepFrom t.1 t.2 ts ∧ Separated ts

/-- The patterns of two tokens share no character. -/
def PatDisjoint (t u : List Char × List Char) : Prop := ∀ c ∈ t.1, c ∉ u.1

/-- An order-independent form of `Separated`. -/
structure WellSeparated (toks : List (List Char × List Char)) : Prop where
  ne : ∀ t ∈ toks, t.1 ≠ [] ∧ t.2 ≠ [] ∧ '$' ∉ t.2
  vals : ∀ t ∈ toks, ∀ u ∈ toks, ∀ c ∈ t.2, c ∉ u.1
  pats : toks.Pairwise PatDisjoint

/-! ## `Utils.request` -/

/-- Values stored in an options record: a string, or a record of strings (`headers`). -/
inductive OptValue where
  | str (s : String)
  | record (fields : List (String × String))
  deriving DecidableEq, Repr

/-- The own enumerable properties of a plain object, in insertion order. -/
abbrev Props := List (String × OptValue)

/-- The prototype of a plain object: `Object.prototype`, or a record put there through
the `__proto__` setter. -/
inductive Proto where
  | objectPrototype
  | record (fields : List (String × String))
  deriving DecidableEq, Repr

/-- A plain object: its own properties and its prototype. -/
structure Obj where
  props : Props
  proto : Proto := .objectPrototype
  deriving DecidableEq, Repr

/-- The value of the own property `k`. -/
def Props.get (o : Props) (k : String) : Option OptValue :=
  match o with
  | [] => none
  | (k', v) :: rest => if k' = k then some v else Props.get rest k

/-- The own property `k` set to `v`: an existing property keeps its place, a new one is
added at the end. -/
def Props.set (o : Props) (k : String) (v : OptValue) : Props :=
  match o with
  | [] => [(k, v)]
  | (k', v') :: rest => if k' = k then (k, v) :: rest else (k', v') :: Props.set rest k v

/-- The value of the own property `k` of an object. -/
def Obj.get (o : Obj) (k : String) : Option OptValue := o.props.get k

/-- Whether the prototype itself carries a data property `k`. -/
def Proto.hasData (p : Proto) (k : String) : Bool :=
  match p with
  | .objectPrototype => false
  | .record fields => fields.any (fun f => f.1 == k)

/-- The internal method `[[Set]]` with the object as receiver, as used by
`Object.assign`: an own property is updated; otherwise the key `__proto__` reaches the
accessor of `Object.prototype`, whose setter replaces the prototype when the value is an
object and does nothing for a primitive, and creates no property; every other key
becomes a new own property. -/
def Obj.set (o : Obj) (k : String) (v : OptValue) : Obj :=
  if k = "__proto__" ∧ o.props.get k = none ∧ o.proto.hasData k = false then
    match v with
    | .record fields => { o with proto := .record fields }
    | .str _ => o
  else { o with props := o.props.set k v }

/-- `Object.assign(target, source)`: every own property of `source`, in order, is
written to `target` with `[[Set]]`. -/
def objectAssign (target source : Obj) : Obj :=
  source.props.foldl (fun t kv => t.set kv.1 kv.2) target

/-- The object literal `defaultOptions`, built anew by every call. -/
def defaultOptions : Obj :=
  { props :=
      [ ("method", .str "GET"),
        ("headers", .record [("Content-Type", "application/json"),
          ("X-Requested-With", "XMLHttpRequest")]),
        ("credentials", .str "same-origin") ] }

/-- The `config` handed to `fetch`; `options = none` is a call without the second
argument, for which the parameter default is the empty object. -/
def requestConfig (options : Option Obj) : Obj :=
  objectAssign defaultOptions (options.getD { props := [] })

/-- The objects the script has created so far; an object is named by its index. -/
abbrev Heap := List Obj

/-- `Object.assign(target, source)` on the heap: the object at `target` is changed in
place. -/
def Heap.assign (hp : Heap) (target : Nat) (source : Obj) : Heap :=
  match hp[target]? with
  | some o => hp.set target (objectAssign o source)
  | none => hp

/-- The first two statements of `request` on the heap: the literal creates a new
object `defaultOptions`, `Object.assign(defaultOptions, options)` changes it in place and
returns it as `config`.  The result is the heap and the address of `config`. -/
def buildConfig (hp : Heap) (options : Option Obj) : Heap × Nat :=
  ((hp ++ [defaultOptions]).assign hp.length (options.getD { props := [] }), hp.length)

/-- The heap after a sequence of calls of `request`, and the `config` of each call. -/
def buildConfigs (hp : Heap) (calls : List (Option Obj)) : Heap × List Nat :=
  calls.foldl (fun st options =>
    ((buildConfig st.1 options).1, st.2 ++ [(buildConfig st.1 options).2])) (hp, [])

/-- A rejection reason: an `Error` object with a message, or any other value. -/
inductive Reason where
  | error (message : List Char)
  | other (tag : Nat)
  deriving DecidableEq, Repr

/-- A `Response`: its `ok` flag, its status, and how `response.json()` settles. -/
structure Response (β : Type) where
  ok : Bool
  status : Nat
  json : Except Reason β

/-- What a call of `request` does besides settling its promise. -/
inductive Effect where
  | fetchCall (url : String) (config : Obj)
  | jsonCall
  | consoleError (label : String) (e : Reason)
  deriving DecidableEq, Repr

/-- A settled promise together with the effects performed on the way. -/
structure Settled (β : Type) where
  outcome : Except Reason β
  effects : List Effect

/-- `p.then(f)`: `f` runs only if `p` is fulfilled; a rejection passes through. -/
def Settled.andThen {α β : Type} (p : Settled α) (f : α → Settled β) : Settled β :=
  match p.outcome with
  | .error e => ⟨.error e, p.effects⟩
  | .ok a => ⟨(f a).outcome, p.effects ++ (f a).effects⟩

/-- `p.catch(g)`: `g` runs only if `p` is rejected. -/
def Settled.orCatch {β : Type} (p : Settled β) (g : Reason → Settled β) : Settled β :=
  match p.outcome with
  | .ok b => ⟨.ok b, p.effects⟩
  | .error e => ⟨(g e).outcome, p.effects ++ (g e).effects⟩

/-- `Utils.request(url, options = {})`, given how `fetch` settles. -/
def request {β : Type} (fetch : String → Obj → Except Reason (Response β)) (url : String)
    (options : Option Obj := none) : Settled β :=
  let config := requestConfig options
  let fetched : Settled (Response β) := ⟨fetch url config, [.fetchCall url config]⟩
  (fetched.andThen (fun response =>
      if !response.ok then
        ⟨.error (.error ("HTTP error! status: ".toList ++ decimal response.status)), []⟩
      else ⟨response.json, [.jsonCall]⟩)).orCatch
    (fun error => ⟨.error error, [.consoleError "Request failed:" error]⟩)

/-! ## The document -/

/-- An element: its node identity `ref`, its `id` attribute, its classes and its own
text. -/
structure Element where
  ref : Nat
  idAttr : Option (List Char)
  className : List Char
  text : List Char
  deriving DecidableEq, Repr

/-- A list of sibling elements with their subtrees, in document order: the first
element, its children, and its following siblings. -/
inductive Forest where
  | nil
  | node (e : Element) (children : Forest) (next : Forest)
  deriving DecidableEq, Repr

namespace Forest

/-- All elements in document order. -/
def preorder : Forest → List Element
  | nil => []
  | node e ch next => e :: (preorder ch ++ preorder next)

/-- The node identities of all elements, in document order. -/
def refs (f : Forest) : List Nat := f.preorder.map (·.ref)

/-- `document.getElementById(id)`: the first element in document order with that id. -/
def getElementById (id : List Char) (f : Forest) : Option Nat :=
  (f.preorder.find? (fun e => e.idAttr == some id)).map (·.ref)

/-- Whether the element `r` is in the document. -/
def contains (r : Nat) (f : Forest) : Bool := f.preorder.any (fun e => e.ref == r)

/-- Number of elements carrying the id `id`. -/
def idCount (id : List Char) (f : Forest) : Nat :=
  f.preorder.countP (fun e => e.idAttr == some id)

/-- The siblings `f` followed by the siblings `g`. -/
def append : Forest → Forest → Forest
  | nil, g => g
  | node e ch next, g => node e ch (append next g)

/-- The forest with `sub` added after the last child of the element `c` (node
identities are unique in a well-formed document). -/
def appendChild (c : Nat) (sub : Forest) : Forest → Forest
  | nil => nil
  | node e ch next =>
    if e.ref = c then node e (append ch sub) (appendChild c sub next)
    else node e (appendChild c sub ch) (appendChild c sub next)

/-- The forest without the element `r` and its subtree. -/
def remove (r : Nat) : Forest → Forest
  | nil => nil
  | node e ch next =>
    if e.ref = r then remove r next else node e (remove r ch) (remove r next)

/-- The node identities of the top-level elements of a forest. -/
def roots : Forest → List Nat
  | nil => []
  | node e _ next => e.ref :: roots next

/-- The children of the element `c`, in order. -/
def childrenOf (c : Nat) : Forest → Option (List Nat)
  | nil => none
  | node e ch next =>
    if e.ref = c then some (roots ch)
    else match childrenOf c ch with
      | some l => some l
      | none => childrenOf c next

/-- The element `r` followed by its ancestors, innermost first. -/
def pathTo (r : Nat) : Forest → Option (List Nat)
  | nil => none
  | node e ch next =>
    if e.ref = r then some [r]
    else match pathTo r ch with
      | some p => some (p ++ [e.ref])
      | none => pathTo r next

/-- The element carrying node identity `r`. -/
def element (r : Nat) (f : Forest) : Option Element :=
  f.preorder.find? (fun e => e.ref == r)

end Forest

/-- An element without an id, with its children and following siblings. -/
def plainNode (ref : Nat) (className text : List Char) (children : Forest) (next : Forest) :
    Forest :=
  .node ⟨ref, none, className, text⟩ children next

/-! ## The page: document, timers, listeners -/

/-- The closures handed to `setTimeout`. -/
inductive Timer where
  | removeToast (toastElement : Option Nat)
  deriving DecidableEq, Repr

/-- The event types the script listens to on elements. -/
inductive EventType where
  | click
  | hiddenModal
  deriving DecidableEq, Repr

/-- The closures handed to `addEventListener` on elements. -/
inductive Handler where
  | confirmClick (callback : Nat) (modal : Option Nat)
  | removeModal (modalId : List Char)
  deriving DecidableEq, Repr

/-- A registered element listener. -/
structure Listener where
  target : Nat
  type : EventType
  handler : Handler
  deriving DecidableEq, Repr

/-- The event types the script listens to on `window`. -/
inductive WindowEventType where
  | error
  | unhandledrejection
  deriving DecidableEq, Repr

/-- The closures handed to `window.addEventListener`. -/
inductive GlobalHandler where
  | globalError
  | globalRejection
  deriving DecidableEq, Repr

/-- A line written with `console.error`. -/
structure ConsoleLine where
  label : String
  payload : Nat
  deriving DecidableEq, Repr

/-- The state of the page as far as the script reads and writes it.  `doc` holds the
elements below `document.body`; `clock` is the reading of `Date.now()`; `toastShows`,
`modalShows` and `modalHides` record the calls into the UI toolkit; `callbackLog`
records the invocations of `confirm` callbacks with their argument; `markupSeen` is
set once the script has handed text containing markup to the HTML parser, and the
document of such a page is not described here. -/
structure Page where
  doc : Forest
  nextRef : Nat
  clock : Int
  timers : List (Int × Timer)
  listeners : List Listener
  windowListeners : List (WindowEventType × GlobalHandler)
  toastShows : List (Option Nat × Nat)
  modalShows : List (Option Nat)
  modalHides : List (Option Nat)
  callbackLog : List (Nat × Bool)
  console : List ConsoleLine
  markupSeen : Bool
  deriving DecidableEq, Repr

/-- A page with an empty body at clock reading `clock`. -/
def emptyPage (clock : Int) : Page :=
  { doc := .nil, nextRef := 0, clock := clock, timers := [], listeners := [],
    windowListeners := [], toastShows := [], modalShows := [], modalHides := [],
    callbackLog := [], console := [], markupSeen := false }

/-- Text that `insertAdjacentHTML` reads as plain text, both between tags and inside a
double-quoted attribute value: no angle bracket, ampersand, quote or control
character. -/
def isPlainText (s : List Char) : Bool :=
  s.all (fun c => c != '<' && c != '>' && c != '&' && c != '"' && c != Char.ofNat 39 &&
    c != Char.ofNat 96 && decide (32 ≤ c.toNat) && c.toNat != 127)

/-- The id given to a toast created at clock reading `clock`. -/
def toastIdAt (clock : Int) : List Char := "toast-".toList ++ numberToString (some clock)

/-- The id given to a confirmation modal created at clock reading `clock`. -/
def modalIdAt (clock : Int) : List Char :=
  "confirm-modal-".toList ++ numberToString (some clock)

/-- The id of the toast container. -/
def TOAST_CONTAINER : List Char := "toast-container".toList

/-- The id of the confirm button of every confirmation modal. -/
def CONFIRM_BTN : List Char := "confirm-btn".toList

/-- The elements parsed from `toastHtml`: the toast `r`, its flex row `r + 1`, the
body `r + 2` holding the message, and the close button `r + 3`.  This is the tree for
a `message` and a `type` that are plain text (`isPlainText`), the only case in which
`showToast` uses it. -/
def toastTree (r : Nat) (toastId type message : List Char) : Forest :=
  .node ⟨r, some toastId,
      "toast align-items-center text-white bg-".toList ++ type ++ " border-0".toList, []⟩
    (plainNode (r + 1) "d-flex".toList []
      (plainNode (r + 2) "toast-body".toList message .nil
        (plainNode (r + 3) "btn-close btn-close-white me-2 m-auto".toList [] .nil .nil))
      .nil)
    .nil

/-- The elements parsed from `modalHtml`: the modal `r`, dialog `r + 1`, content
`r + 2`, header `r + 3` with title `r + 4` and close button `r + 5`, body `r + 6`
with the message paragraph `r + 7`, footer `r + 8` with the cancel button `r + 9`
and the confirm button `r + 10`.  This is the tree for a `message` that is plain text
(`isPlainText`), the only case in which `confirm` uses it. -/
def modalTree (r : Nat) (modalId message : List Char) : Forest :=
  .node ⟨r, some modalId, "modal fade".toList, []⟩
    (plainNode (r + 1) "modal-dialog modal-dialog-centered".toList []
      (plainNode (r + 2) "modal-content".toList []
        (plainNode (r + 3) "modal-header".toList []
          (plainNode (r + 4) "modal-title".toList "确认操作".toList .nil
            (plainNode (r + 5) "btn-close".toList [] .nil .nil))
          (plainNode (r + 6) "modal-body".toList []
            (plainNode (r + 7) [] message .nil .nil)
            (plainNode (r + 8) "modal-footer".toList []
              (plainNode (r + 9) "btn btn-secondary".toList "取消".toList .nil
                (.node ⟨r + 10, some CONFIRM_BTN, "btn btn-primary".toList, "确认".toList⟩
                  .nil .nil))
              .nil)))
        .nil)
      .nil)
    .nil

/-- The toast container to insert into: the element with id `toast-container`, created
at the end of the body when the document has none. -/
def ensureContainer (pg : Page) : Nat × Page :=
  match pg.doc.getElementById TOAST_CONTAINER with
  | some c => (c, pg)
  | none =>
    (pg.nextRef,
      { pg with
        doc := pg.doc.append (.node ⟨pg.nextRef, some TOAST_CONTAINER,
          "toast-container position-fixed top-0 end-0 p-3".toList, []⟩ .nil .nil),
        nextRef := pg.nextRef + 1 })

/-- The element into which `showToast` inserts. -/
def containerRef (pg : Page) : Nat := (ensureContainer pg).1

/-- The node identity of the toast element that `showToast` inserts. -/
def toastRef (pg : Page) : Nat := (ensureContainer pg).2.nextRef

/-- The statements of `Utils.showToast` for a `message` and a `type` that are plain
text. -/
def showToastPlain (message type : List Char) (duration : Nat) (pg : Page) : Page :=
  let toastId := toastIdAt pg.clock
  let (container, pg1) := ensureContainer pg
  let doc2 := Forest.appendChild container (toastTree pg1.nextRef toastId type message) pg1.doc
  let toastElement := doc2.getElementById toastId
  { pg1 with
    doc := doc2,
    nextRef := pg1.nextRef + 4,
    toastShows := pg1.toastShows ++ [(toastElement, duration)],
    timers := pg1.timers ++ [(pg.clock + duration + 1000, .removeToast toastElement)] }

/-- `Utils.showToast(message, type = 'info', duration = 3000)`.  The template is parsed
as HTML: for a `message` or `type` with markup the page is marked `markupSeen` and not
described further. -/
def showToast (message : List Char) (type : List Char := "info".toList) (duration : Nat := 3000)
    (pg : Page) : Page :=
  if isPlainText message && isPlainText type then showToastPlain message type duration pg
  else { pg with markupSeen := true }

/-- `Utils.showSuccess(message, duration = 3000)`. -/
def showSuccess (message : List Char) (duration : Nat := 3000) (pg : Page) : Page :=
  showToast message "success".toList duration pg

/-- `Utils.showErrorToast(message, duration = 5000)`. -/
def showErrorToast (message : List Char) (duration : Nat := 5000) (pg : Page) : Page :=
  showToast message "danger".toList duration pg

/-- The message shown for an uncaught error. -/
def ERROR_MESSAGE : List Char := "页面发生错误，请刷新页面重试".toList

/-- The message shown for an unhandled promise rejection. -/
def REJECTION_MESSAGE : List Char := "操作失败，请稍后重试".toList

/-- The body of a `window` listener, run for an event carrying `payload` (`e.error`,
respectively `e.reason`). -/
def runGlobal (g : GlobalHandler) (payload : Nat) (pg : Page) : Page :=
  match g with
  | .globalError =>
    showErrorToast ERROR_MESSAGE 5000
      { pg with console := pg.console ++ [⟨"Global error:", payload⟩] }
  | .globalRejection =>
    showErrorToast REJECTION_MESSAGE 5000
      { pg with console := pg.console ++ [⟨"Unhandled promise rejection:", payload⟩] }

/-- Delivery of a `window` event to the listeners registered for its type, in
registration order. -/
def dispatchWindow (type : WindowEventType) (payload : Nat) (pg : Page) : Page :=
  (pg.windowListeners.filter (fun l => l.1 == type)).foldl
    (fun p l => runGlobal l.2 payload p) pg

/-- The part of the `DOMContentLoaded` listener that installs the global error
handling (lines 236 to 246); the tooltip, popover, alert, form and table-row wiring
above it does not touch what is modelled here. -/
def initialise (pg : Page) : Page :=
  { pg with
    windowListeners := pg.windowListeners ++
      [(.error, .globalError), (.unhandledrejection, .globalRejection)] }

/-- The statements of `Utils.confirm` for a `message` that is plain text; `callback`
names the function passed in. -/
def confirmPlain (message : List Char) (callback : Nat) (pg : Page) : Page :=
  let modalId := modalIdAt pg.clock
  let doc1 := pg.doc.append (modalTree pg.nextRef modalId message)
  let modal := doc1.getElementById modalId
  let listeners1 :=
    match doc1.getElementById CONFIRM_BTN with
    | some confirmBtn => pg.listeners ++ [⟨confirmBtn, .click, .confirmClick callback modal⟩]
    | none => pg.listeners
  let listeners2 :=
    match doc1.getElementById modalId with
    | some el => listeners1 ++ [⟨el, .hiddenModal, .removeModal modalId⟩]
    | none => listeners1
  { pg with
    doc := doc1,
    nextRef := pg.nextRef + 11,
    listeners := listeners2,
    modalShows := pg.modalShows ++ [modal] }

/-- `Utils.confirm(message, callback)`.  The template is parsed as HTML: for a `message`
with markup the page is marked `markupSeen` and not described further. -/
def confirm (message : List Char) (callback : Nat) (pg : Page) : Page :=
  if isPlainText message then confirmPlain message callback pg
  else { pg with markupSeen := true }

/-- The body of an element listener. -/
def runHandler (h : Handler) (pg : Page) : Page :=
  match h with
  | .confirmClick callback modal =>
    { pg with
      callbackLog := pg.callbackLog ++ [(callback, true)],
      modalHides := pg.modalHides ++ [modal] }
  | .removeModal modalId =>
    match pg.doc.getElementById modalId with
    | some el => { pg with doc := pg.doc.remove el }
    | none => dispatchWindow .error 0 pg

/-- Delivery of an element event: the listeners of that type on the target and then on
each of its ancestors, in registration order. -/
def dispatch (type : EventType) (target : Nat) (pg : Page) : Page :=
  let path := (pg.doc.pathTo target).getD [target]
  let ls := path.flatMap (fun r => pg.listeners.filter (fun l => l.target == r && l.type == type))
  ls.foldl (fun p l => runHandler l.handler p) pg

/-- The body of a timer callback. -/
def runTimer (t : Timer) (pg : Page) : Page :=
  match t with
  | .removeToast (some el) =>
    if pg.doc.contains el then { pg with doc := pg.doc.remove el } else pg
  | .removeToast none => pg

/-- The timers of `pg` that are due at time `t`, earliest first. -/
def dueTimers (t : Int) (pg : Page) : List (Int × Timer) :=
  (pg.timers.filter (fun x => decide (x.1 ≤ t))).insertionSort (fun a b => a.1 ≤ b.1)

/-- The page at time `t`: every timer due by then has run, earliest first. -/
def advance (t : Int) (pg : Page) : Page :=
  let pg1 := (dueTimers t pg).foldl (fun p x => runTimer x.2 p)
    { pg with timers := pg.timers.filter (fun x => !decide (x.1 ≤ t)) }
  { pg1 with clock := max pg.clock t }

/-- What happens on the page. -/
inductive Action where
  | showToast (message type : List Char) (duration : Nat)
  | confirm (message : List Char) (callback : Nat)
  | event (type : EventType) (target : Nat)
  | windowEvent (type : WindowEventType) (payload : Nat)
  deriving DecidableEq, Repr

/-- One action on the page. -/
def Action.apply : Action → Page → Page
  | .showToast message type duration, pg => MainJs.showToast message type duration pg
  | .confirm message callback, pg => MainJs.confirm message callback pg
  | .event type target, pg => dispatch type target pg
  | .windowEvent type payload, pg => dispatchWindow type payload pg

/-- A run: each action happens at its clock reading, after the timers due by then. -/
def run (actions : List (Int × Action)) (pg : Page) : Page :=
  actions.foldl (fun p a => a.2.apply (advance a.1 p)) pg

/-- Node identities are unique and were all handed out by the allocator. -/
def Page.WF (pg : Page) : Prop :=
  pg.doc.refs.Nodup ∧ ∀ r ∈ pg.doc.refs, r < pg.nextRef

/-! ## Invariants used in the proofs -/

/-- Every node identity in the document was handed out by the allocator. -/
def Page.Fresh (pg : Page) : Prop := ∀ x ∈ pg.doc.refs, x < pg.nextRef

/-- What `ensureContainer` guarantees. -/
structure ContainerSpec (pg : Page) (c : Nat) (pg1 : Page) : Prop where
  nodup : pg1.doc.refs.Nodup
  fresh : ∀ x ∈ pg1.doc.refs, x < pg1.nextRef
  found : pg1.doc.getElementById TOAST_CONTAINER = some c
  other : ∀ id : List Char, id ≠ TOAST_CONTAINER →
    pg1.doc.getElementById id = pg.doc.getElementById id
  next_le : pg.nextRef ≤ pg1.nextRef
  refs_sub : ∀ x ∈ pg1.doc.refs, x ∈ pg.doc.refs ∨ (pg.nextRef ≤ x ∧ x < pg1.nextRef)
  refs_sup : ∀ x ∈ pg.doc.refs, x ∈ pg1.doc.refs
  timers : pg1.timers = pg.timers
  clock : pg1.clock = pg.clock

/-- The state of the document right after the insertion made by `showToast`. -/
structure InsertSpec (pg : Page) (message type : List Char) (doc2 : Forest) : Prop where
  containerFound :
    doc2.getElementById TOAST_CONTAINER = some (ensureContainer pg).1
  lastChild : ∃ l, doc2.childrenOf (ensureContainer pg).1
    = some (l ++ [(ensureContainer pg).2.nextRef])
  hasId : (doc2.element (ensureContainer pg).2.nextRef).map (·.idAttr)
    = some (some (toastIdAt pg.clock))
  lookup : pg.doc.getElementById (toastIdAt pg.clock) = none →
    doc2.getElementById (toastIdAt pg.clock) = some (ensureContainer pg).2.nextRef

/-- `pg'` arises from `pg` by steps that add only newly allocated elements and keep the
pending timers. -/
structure Extends (pg pg' : Page) : Prop where
  next_le : pg.nextRef ≤ pg'.nextRef
  refs : ∀ x ∈ pg'.doc.refs, x ∈ pg.doc.refs ∨ pg.nextRef ≤ x
  fresh : pg.Fresh → pg'.Fresh
  timers : ∀ tm ∈ pg.timers, tm ∈ pg'.timers

/-- The element `r` is either gone or still has its removal timer pending. -/
structure Pending (r : Nat) (due : Int) (pg : Page) : Prop where
  lt : r < pg.nextRef
  fresh : pg.Fresh
  timer : r ∈ pg.doc.refs → (due, Timer.removeToast (some r)) ∈ pg.timers

/-! # Theorems -/

/-! ## Strings and the replacement chain -/

theorem getSubstitution_of_no_dollar (m b a : List Char) :
    ∀ rep : List Char, '$' ∉ rep → getSubstitution m b a rep = rep
  | [], _ => rfl
  | [_], _ => rfl
  | c :: d :: rest, h => by
    have hc : c ≠ '$' := fun e => h (by simp [e])
    have ih := getSubstitution_of_no_dollar m b a (d :: rest)
      (fun hm => h (List.mem_cons_of_mem _ hm))
    simp [getSubstitution, hc, ih]

theorem isPrefixOf_eq_false_of_head {p : List Char} {c : Char} (s : List Char)
    (hp : p ≠ []) (hc : c ∉ p) : p.isPrefixOf (c :: s) = false := by
  cases p with
  | nil => exact absurd rfl hp
  | cons x xs =>
    have hx : x ≠ c := fun e => hc (by simp [e])
    simp [List.isPrefixOf, hx]

theorem indexOf_append_of_disjoint {p : List Char} (hp : p ≠ []) :
    ∀ (a b : List Char), (∀ c ∈ a, c ∉ p) →
      indexOf p (a ++ b) = (indexOf p b).map (· + a.length)
  | [], b, _ => by simp
  | c :: a, b, h => by
    have hc : c ∉ p := h c (by simp)
    have ih := indexOf_append_of_disjoint hp a b (fun x hx => h x (List.mem_cons_of_mem _ hx))
    have e : indexOf p (c :: (a ++ b)) = (indexOf p (a ++ b)).map (· + 1) := by
      simp only [indexOf, isPrefixOf_eq_false_of_head _ hp hc]; rfl
    rw [List.cons_append, e, ih]
    cases indexOf p b <;> simp [Nat.add_assoc]

theorem indexOf_eq_none_of_disjoint {p : List Char} (hp : p ≠ []) (s : List Char)
    (h : ∀ c ∈ s, c ∉ p) : indexOf p s = none := by
  have := indexOf_append_of_disjoint hp s [] h
  simp only [List.append_nil] at this
  rw [this]
  cases p with
  | nil => exact absurd rfl hp
  | cons x xs => simp [indexOf, List.isPrefixOf]

theorem indexOf_self_append (p b : List Char) : indexOf p (p ++ b) = some 0 := by
  have h : p.isPrefixOf (p ++ b) = true := List.isPrefixOf_iff_prefix.2 (List.prefix_append _ _)
  cases hpb : p ++ b with
  | nil => rw [hpb] at h; simp [indexOf, h]
  | cons c s => rw [hpb] at h; simp [indexOf, h]

theorem jsReplace_eq_of_indexOf_none {p v s : List Char} (h : indexOf p s = none) :
    jsReplace p v s = s := by
  simp [jsReplace, h]

theorem jsReplace_at {p v : List Char} (a b : List Char) (hp : p ≠ [])
    (ha : ∀ c ∈ a, c ∉ p) (hv : '$' ∉ v) : jsReplace p v (a ++ p ++ b) = a ++ v ++ b := by
  have hi : indexOf p (a ++ p ++ b) = some a.length := by
    rw [List.append_assoc, indexOf_append_of_disjoint hp a _ ha, indexOf_self_append]; simp
  simp only [jsReplace, hi, getSubstitution_of_no_dollar _ _ _ _ hv]
  simp [List.append_assoc, List.take_left, List.drop_append]

theorem isPrefixOf_append_of_disjoint (m b : List Char) (hm : m ≠ []) :
    ∀ (p x : List Char), (∀ c ∈ m, c ∉ p) →
      p.isPrefixOf (x ++ m ++ b) = p.isPrefixOf x
  | [], x, _ => by cases x <;> cases m <;> simp [List.isPrefixOf]
  | c :: p, [], h => by
    cases m with
    | nil => exact absurd rfl hm
    | cons y m =>
      have hy : c ≠ y := fun e => h y (by simp) (by simp [e])
      simp [List.isPrefixOf, hy]
  | c :: p, y :: x, h => by
    have ih := isPrefixOf_append_of_disjoint m b hm p x
      (fun z hz hzp => h z hz (List.mem_cons_of_mem _ hzp))
    simp only [List.cons_append, List.isPrefixOf_cons₂, ih]

theorem indexOf_nil_of_ne {p : List Char} (hp : p ≠ []) : indexOf p [] = none := by
  cases p with
  | nil => exact absurd rfl hp
  | cons x xs => simp [indexOf, List.isPrefixOf]

theorem indexOf_append_middle {p : List Char} (hp : p ≠ []) (m b : List Char) (hm : m ≠ [])
    (hd : ∀ c ∈ m, c ∉ p) :
    ∀ a : List Char, indexOf p (a ++ m ++ b) =
      match indexOf p a with
      | some j => some j
      | none => (indexOf p b).map (· + (a.length + m.length))
  | [] => by
    simp only [List.nil_append, indexOf_nil_of_ne hp, List.length_nil, Nat.zero_add]
    exact indexOf_append_of_disjoint hp m b hd
  | c :: a => by
    have ih := indexOf_append_middle hp m b hm hd a
    have hpre := isPrefixOf_append_of_disjoint m b hm p (c :: a) hd
    have e1 : indexOf p (c :: a ++ m ++ b) =
        if p.isPrefixOf (c :: a) then some 0 else (indexOf p (a ++ m ++ b)).map (· + 1) := by
      rw [← hpre]; rfl
    have e2 : indexOf p (c :: a) =
        if p.isPrefixOf (c :: a) then some 0 else (indexOf p a).map (· + 1) := rfl
    rw [e1, e2, ih]
    by_cases hb : p.isPrefixOf (c :: a) = true
    · simp [hb]
    · simp only [hb, if_false]
      cases indexOf p a with
      | some j => rfl
      | none =>
        cases indexOf p b with
        | none => rfl
        | some k => simp [Nat.add_assoc, Nat.add_comm, Nat.add_left_comm]

theorem indexOf_bound {p : List Char} :
    ∀ (s : List Char) (j : Nat), indexOf p s = some j → j + p.length ≤ s.length
  | [], j, h => by
    by_cases hb : p.isPrefixOf [] = true
    · have : p = [] := by
        cases p with
        | nil => rfl
        | cons x xs => simp [List.isPrefixOf] at hb
      simp [indexOf, hb] at h
      simp [this, ← h]
    · simp [indexOf, hb] at h
  | c :: s, j, h => by
    by_cases hb : p.isPrefixOf (c :: s) = true
    · have hj : j = 0 := by simp [indexOf, hb] at h; exact h.symm
      have := (List.isPrefixOf_iff_prefix.1 hb).length_le
      simpa [hj] using this
    · simp only [indexOf, hb, if_false] at h
      cases hi : indexOf p s with
      | none => simp [hi] at h
      | some k =>
        have hk := indexOf_bound s k hi
        simp [hi] at h
        simp only [List.length_cons]; omega

theorem indexOf_split {p : List Char} :
    ∀ (s : List Char) (j : Nat), indexOf p s = some j →
      s = s.take j ++ p ++ s.drop (j + p.length)
  | [], j, h => by
    by_cases hb : p.isPrefixOf [] = true
    · have : p = [] := by
        cases p with
        | nil => rfl
        | cons x xs => simp [List.isPrefixOf] at hb
      simp [this]
    · simp [indexOf, hb] at h
  | c :: s, j, h => by
    by_cases hb : p.isPrefixOf (c :: s) = true
    · have hj : j = 0 := by simp [indexOf, hb] at h; exact h.symm
      have := List.prefix_iff_eq_append.1 (List.isPrefixOf_iff_prefix.1 hb)
      simpa [hj] using this.symm
    · simp only [indexOf, hb, if_false] at h
      cases hi : indexOf p s with
      | none => simp [hi] at h
      | some k =>
        have hk := indexOf_split s k hi
        simp [hi] at h
        subst h
        simp only [List.take_succ_cons, List.cons_append]
        rw [show k + 1 + p.length = (k + p.length) + 1 by omega, List.drop_succ_cons]
        exact congrArg _ hk

theorem find?_congr_mem {α : Type} {P Q : α → Bool} :
    ∀ (l : List α), (∀ t ∈ l, P t = Q t) → l.find? P = l.find? Q
  | [], _ => rfl
  | x :: l, h => by
    have ih := find?_congr_mem l (fun t ht => h t (List.mem_cons_of_mem _ ht))
    simp [List.find?, h x (by simp), ih]

theorem any_congr_mem {α : Type} {P Q : α → Bool} :
    ∀ (l : List α), (∀ t ∈ l, P t = Q t) → l.any P = l.any Q
  | [], _ => rfl
  | x :: l, h => by
    have ih := any_congr_mem l (fun t ht => h t (List.mem_cons_of_mem _ ht))
    simp [List.any, h x (by simp), ih]

theorem length_pos_of_ne {q : List Char} (hq : q ≠ []) : 0 < q.length :=
  List.length_pos.2 hq

/-- Region before the replaced occurrence. -/
theorem region_left {q a b m n : List Char} (hq : q ≠ []) (hm : m ≠ []) (hn : n ≠ [])
    (hdm : ∀ c ∈ m, c ∉ q) (hdn : ∀ c ∈ n, c ∉ q) {i : Nat} (hi : i < a.length) :
    startsAt q (a ++ m ++ b) i = startsAt q (a ++ n ++ b) i ∧
    coveredBy q (a ++ m ++ b) i = coveredBy q (a ++ n ++ b) i := by
  unfold startsAt coveredBy
  rw [indexOf_append_middle hq m b hm hdm a, indexOf_append_middle hq n b hn hdn a]
  cases hqa : indexOf q a with
  | some j => simp
  | none =>
    cases hqb : indexOf q b with
    | none => simp
    | some k =>
      have h1 : ¬ (k + (a.length + m.length) = i) := by omega
      have h2 : ¬ (k + (a.length + n.length) = i) := by omega
      have h3 : ¬ (k + (a.length + m.length) < i) := by omega
      have h4 : ¬ (k + (a.length + n.length) < i) := by omega
      simp [h1, h2, h3, h4]

/-- Region of the middle part: no token starts or lies there. -/
theorem region_middle {q a b m : List Char} (hq : q ≠ []) (hm : m ≠ [])
    (hdm : ∀ c ∈ m, c ∉ q) {k : Nat} (hk : k < m.length) :
    startsAt q (a ++ m ++ b) (a.length + k) = false ∧
    coveredBy q (a ++ m ++ b) (a.length + k) = false := by
  unfold startsAt coveredBy
  rw [indexOf_append_middle hq m b hm hdm a]
  have hql := length_pos_of_ne hq
  cases hqa : indexOf q a with
  | some j =>
    have hb := indexOf_bound a j hqa
    have h1 : ¬ (j = a.length + k) := by omega
    have h2 : ¬ (a.length + k < j + q.length) := by omega
    simp [h1, h2]
  | none =>
    cases hqb : indexOf q b with
    | none => simp
    | some l =>
      have h1 : ¬ (l + (a.length + m.length) = a.length + k) := by omega
      have h3 : ¬ (l + (a.length + m.length) < a.length + k) := by omega
      simp [h1, h3]

/-- Region after the replaced occurrence: indices shift by the length difference. -/
theorem region_right {q a b m n : List Char} (hq : q ≠ []) (hm : m ≠ []) (hn : n ≠ [])
    (hdm : ∀ c ∈ m, c ∉ q) (hdn : ∀ c ∈ n, c ∉ q) (k : Nat) :
    startsAt q (a ++ m ++ b) (a.length + m.length + k)
      = startsAt q (a ++ n ++ b) (a.length + n.length + k) ∧
    coveredBy q (a ++ m ++ b) (a.length + m.length + k)
      = coveredBy q (a ++ n ++ b) (a.length + n.length + k) := by
  unfold startsAt coveredBy
  rw [indexOf_append_middle hq m b hm hdm a, indexOf_append_middle hq n b hn hdn a]
  have hql := length_pos_of_ne hq
  cases hqa : indexOf q a with
  | some j =>
    have hb := indexOf_bound a j hqa
    have h1 : ¬ (j = a.length + m.length + k) := by omega
    have h2 : ¬ (j = a.length + n.length + k) := by omega
    have h3 : ¬ (a.length + m.length + k < j + q.length) := by omega
    have h4 : ¬ (a.length + n.length + k < j + q.length) := by omega
    simp [h1, h2, h3, h4]
  | none =>
    cases hqb : indexOf q b with
    | none => simp
    | some l =>
      have e1 : (l + (a.length + m.length) = a.length + m.length + k) ↔ l = k := by omega
      have e2 : (l + (a.length + n.length) = a.length + n.length + k) ↔ l = k := by omega
      have e3 : (l + (a.length + m.length) < a.length + m.length + k) ↔ l < k := by omega
      have e4 : (l + (a.length + n.length) < a.length + n.length + k) ↔ l < k := by omega
      have e5 : (a.length + m.length + k < l + (a.length + m.length) + q.length)
          ↔ k < l + q.length := by omega
      have e6 : (a.length + n.length + k < l + (a.length + n.length) + q.length)
          ↔ k < l + q.length := by omega
      simp [e1, e2, e3, e4, e5, e6]

theorem tokenStartingAt_eq (toks : List (List Char × List Char)) (f : List Char) (i : Nat) :
    tokenStartingAt toks f i = toks.find? (fun t => startsAt t.1 f i) := rfl

theorem insideToken_eq (toks : List (List Char × List Char)) (f : List Char) (i : Nat) :
    insideToken toks f i = toks.any (fun t => coveredBy t.1 f i) := rfl

section
variable {p v a b : List Char} {ts : List (List Char × List Char)}

theorem substituteAt_left (hp : p ≠ []) (hv : v ≠ []) (hs : SepFrom p v ts)
    (hidx : indexOf p (a ++ p ++ b) = some a.length) {i : Nat} (hi : i < a.length) :
    substituteAt ts (a ++ v ++ b) i = substituteAt ((p, v) :: ts) (a ++ p ++ b) i := by
  have hne : ¬ (a.length = i) := by omega
  have hlt : ¬ (a.length < i) := by omega
  have h1 : startsAt p (a ++ p ++ b) i = false := by
    simp only [startsAt, hidx]; simpa using hne
  have h2 : coveredBy p (a ++ p ++ b) i = false := by
    simp only [coveredBy, hidx]; simp [hlt]
  have hf : ts.find? (fun t => startsAt t.1 (a ++ v ++ b) i)
      = ts.find? (fun t => startsAt t.1 (a ++ p ++ b) i) :=
    find?_congr_mem ts (fun t ht =>
      (region_left (hs t ht).1 hv hp (hs t ht).2.2 (hs t ht).2.1 hi).1)
  have ha : ts.any (fun t => coveredBy t.1 (a ++ v ++ b) i)
      = ts.any (fun t => coveredBy t.1 (a ++ p ++ b) i) :=
    any_congr_mem ts (fun t ht =>
      (region_left (hs t ht).1 hv hp (hs t ht).2.2 (hs t ht).2.1 hi).2)
  have hg : (a ++ v ++ b)[i]? = (a ++ p ++ b)[i]? := by
    rw [List.append_assoc, List.append_assoc, List.getElem?_append_left hi,
      List.getElem?_append_left hi]
  simp only [substituteAt, tokenStartingAt_eq, insideToken_eq, List.find?_cons, List.any_cons,
    h1, h2, hf, ha, hg, Bool.false_or]

theorem substituteAt_right (hp : p ≠ []) (hv : v ≠ []) (hs : SepFrom p v ts)
    (hidx : indexOf p (a ++ p ++ b) = some a.length) (k : Nat) :
    substituteAt ts (a ++ v ++ b) (a.length + v.length + k)
      = substituteAt ((p, v) :: ts) (a ++ p ++ b) (a.length + p.length + k) := by
  have hpl := length_pos_of_ne hp
  have hne : ¬ (a.length = a.length + p.length + k) := by omega
  have hlt : ¬ (a.length + p.length + k < a.length + p.length) := by omega
  have h1 : startsAt p (a ++ p ++ b) (a.length + p.length + k) = false := by
    simp only [startsAt, hidx]; simpa using hne
  have h2 : coveredBy p (a ++ p ++ b) (a.length + p.length + k) = false := by
    simp only [coveredBy, hidx]; simp
  have hf : ts.find? (fun t => startsAt t.1 (a ++ v ++ b) (a.length + v.length + k))
      = ts.find? (fun t => startsAt t.1 (a ++ p ++ b) (a.length + p.length + k)) :=
    find?_congr_mem ts (fun t ht =>
      (region_right (hs t ht).1 hv hp (hs t ht).2.2 (hs t ht).2.1 k).1)
  have ha : ts.any (fun t => coveredBy t.1 (a ++ v ++ b) (a.length + v.length + k))
      = ts.any (fun t => coveredBy t.1 (a ++ p ++ b) (a.length + p.length + k)) :=
    any_congr_mem ts (fun t ht =>
      (region_right (hs t ht).1 hv hp (hs t ht).2.2 (hs t ht).2.1 k).2)
  have hg : (a ++ v ++ b)[a.length + v.length + k]? = (a ++ p ++ b)[a.length + p.length + k]? := by
    rw [List.getElem?_append_right (by simp), List.getElem?_append_right (by simp)]
    simp
  simp only [substituteAt, tokenStartingAt_eq, insideToken_eq, List.find?_cons, List.any_cons,
    h1, h2, hf, ha, hg, Bool.false_or]

theorem substituteAt_middle_new (hv : v ≠ []) (hs : SepFrom p v ts) {k : Nat}
    (hk : k < v.length) :
    substituteAt ts (a ++ v ++ b) (a.length + k) = v[k]?.toList := by
  have hf : ts.find? (fun t => startsAt t.1 (a ++ v ++ b) (a.length + k)) = none := by
    rw [List.find?_eq_none]
    intro t ht
    rw [(region_middle (hs t ht).1 hv (hs t ht).2.2 hk).1]; simp
  have ha : ts.any (fun t => coveredBy t.1 (a ++ v ++ b) (a.length + k)) = false := by
    rw [List.any_eq_false]
    intro t ht
    rw [(region_middle (hs t ht).1 hv (hs t ht).2.2 hk).2]; simp
  have hg : (a ++ v ++ b)[a.length + k]? = v[k]? := by
    rw [List.append_assoc, List.getElem?_append_right (by omega),
      List.getElem?_append_left (by simpa using hk)]
    simp
  simp only [substituteAt, tokenStartingAt_eq, insideToken_eq, hf, ha, hg]
  simp

theorem substituteAt_middle_old_zero
    (hidx : indexOf p (a ++ p ++ b) = some a.length) :
    substituteAt ((p, v) :: ts) (a ++ p ++ b) a.length = v := by
  simp only [substituteAt, tokenStartingAt_eq, startsAt, List.find?_cons, hidx]
  simp

theorem substituteAt_middle_old_succ (hp : p ≠ []) (hs : SepFrom p v ts)
    (hidx : indexOf p (a ++ p ++ b) = some a.length) {k : Nat} (hk : k + 1 < p.length) :
    substituteAt ((p, v) :: ts) (a ++ p ++ b) (a.length + (k + 1)) = [] := by
  have hf : ts.find? (fun t => startsAt t.1 (a ++ p ++ b) (a.length + (k + 1))) = none := by
    rw [List.find?_eq_none]
    intro t ht
    rw [(region_middle (hs t ht).1 hp (hs t ht).2.1 hk).1]; simp
  have h1 : startsAt p (a ++ p ++ b) (a.length + (k + 1)) = false := by
    simp only [startsAt, hidx]; simp
  have h2 : coveredBy p (a ++ p ++ b) (a.length + (k + 1)) = true := by
    simp only [coveredBy, hidx]; simp; omega
  simp only [substituteAt, tokenStartingAt_eq, insideToken_eq, List.find?_cons, List.any_cons,
    h1, h2, hf]
  simp

end

theorem flatMap_getElem?_range (s : List Char) :
    (List.range s.length).flatMap (fun k => s[k]?.toList) = s := by
  induction s using List.reverseRecOn with
  | nil => rfl
  | append_singleton s c ih =>
    rw [List.length_append, List.length_singleton, List.range_succ, List.flatMap_append]
    have h1 : (List.range s.length).flatMap (fun k => (s ++ [c])[k]?.toList)
        = (List.range s.length).flatMap (fun k => s[k]?.toList) :=
      List.flatMap_congr (fun k hk => by
        rw [List.getElem?_append_left (List.mem_range.1 hk)])
    rw [h1, ih]
    simp

theorem substituteLeftmost_nil (f : List Char) : substituteLeftmost [] f = f := by
  have : substituteAt [] f = fun k => f[k]?.toList := by
    funext k; simp [substituteAt, tokenStartingAt, insideToken]
  rw [substituteLeftmost, this, flatMap_getElem?_range]

theorem range_three (x y z : Nat) :
    List.range (x + y + z) = List.range x ++ (List.range y).map (fun k => x + k)
      ++ (List.range z).map (fun k => x + y + k) := by
  rw [List.range_add, List.range_add]

section
variable {p v a b : List Char} {ts : List (List Char × List Char)}

theorem substituteLeftmost_step (hp : p ≠ []) (hv : v ≠ []) (hs : SepFrom p v ts)
    (hidx : indexOf p (a ++ p ++ b) = some a.length) :
    substituteLeftmost ts (a ++ v ++ b) = substituteLeftmost ((p, v) :: ts) (a ++ p ++ b) := by
  unfold substituteLeftmost
  rw [List.length_append, List.length_append, List.length_append, List.length_append,
    range_three, range_three]
  simp only [List.flatMap_append, List.flatMap_map]
  have hL : (List.range a.length).flatMap (substituteAt ts (a ++ v ++ b))
      = (List.range a.length).flatMap (substituteAt ((p, v) :: ts) (a ++ p ++ b)) :=
    List.flatMap_congr (fun i hi => substituteAt_left hp hv hs hidx (List.mem_range.1 hi))
  have hR : (List.range b.length).flatMap
        (fun k => substituteAt ts (a ++ v ++ b) (a.length + v.length + k))
      = (List.range b.length).flatMap
        (fun k => substituteAt ((p, v) :: ts) (a ++ p ++ b) (a.length + p.length + k)) :=
    List.flatMap_congr (fun k _ => substituteAt_right hp hv hs hidx k)
  have hMv : (List.range v.length).flatMap
        (fun k => substituteAt ts (a ++ v ++ b) (a.length + k)) = v := by
    rw [List.flatMap_congr (fun k hk =>
      substituteAt_middle_new (a := a) (b := b) hv hs (List.mem_range.1 hk))]
    exact flatMap_getElem?_range v
  have hMp : (List.range p.length).flatMap
        (fun k => substituteAt ((p, v) :: ts) (a ++ p ++ b) (a.length + k)) = v := by
    obtain ⟨n, hn⟩ : ∃ n, p.length = n + 1 :=
      ⟨p.length - 1, by have := length_pos_of_ne hp; omega⟩
    rw [hn, List.range_succ_eq_map, List.flatMap_cons, List.flatMap_map]
    have hz : (List.range n).flatMap
        (fun k => substituteAt ((p, v) :: ts) (a ++ p ++ b) (a.length + k.succ)) = [] := by
      rw [List.flatMap_eq_nil_iff]
      intro k hk
      exact substituteAt_middle_old_succ hp hs hidx (by have := List.mem_range.1 hk; omega)
    rw [hz, Nat.add_zero, substituteAt_middle_old_zero hidx, List.append_nil]
  rw [hL, hR, hMv, hMp]

end

theorem substituteLeftmost_replace {p v : List Char} {ts : List (List Char × List Char)}
    (hp : p ≠ []) (hv : v ≠ []) (hd : '$' ∉ v) (hs : SepFrom p v ts) (f : List Char) :
    substituteLeftmost ts (jsReplace p v f) = substituteLeftmost ((p, v) :: ts) f := by
  cases hi : indexOf p f with
  | none =>
    rw [jsReplace_eq_of_indexOf_none hi]
    unfold substituteLeftmost
    refine List.flatMap_congr (fun i _ => ?_)
    simp only [substituteAt, tokenStartingAt_eq, insideToken_eq, List.find?_cons, List.any_cons,
      startsAt, coveredBy, hi, Bool.false_or]
    simp
  | some j =>
    have hsplit := indexOf_split f j hi
    have hlen : (f.take j).length = j := by
      have := indexOf_bound f j hi
      rw [List.length_take]; omega
    have hidx : indexOf p (f.take j ++ p ++ f.drop (j + p.length)) = some (f.take j).length := by
      rw [← hsplit, hlen]; exact hi
    have hrep : jsReplace p v f = f.take j ++ v ++ f.drop (j + p.length) := by
      simp only [jsReplace, hi, getSubstitution_of_no_dollar _ _ _ _ hd]
    rw [hrep, substituteLeftmost_step hp hv hs hidx, ← hsplit]

theorem replaceChain_eq_substituteLeftmost :
    ∀ (toks : List (List Char × List Char)), Separated toks → ∀ f : List Char,
      replaceChain toks f = substituteLeftmost toks f
  | [], _, f => by simp [replaceChain, substituteLeftmost_nil]
  | (p, v) :: ts, h, f => by
    obtain ⟨hp, hv, hd, hs, hrest⟩ := h
    have ih := replaceChain_eq_substituteLeftmost ts hrest (jsReplace p v f)
    have : replaceChain ((p, v) :: ts) f = replaceChain ts (jsReplace p v f) := rfl
    rw [this, ih, substituteLeftmost_replace hp hv hd hs f]

theorem digitChar_isDigit (n : Nat) : (Nat.digitChar (n % 10)).isDigit = true := by
  have h : n % 10 < 10 := Nat.mod_lt _ (by decide)
  generalize n % 10 = k at h
  interval_cases k <;> decide

theorem toDigitsCore_isDigit :
    ∀ (fuel n : Nat) (acc : List Char), (∀ c ∈ acc, c.isDigit = true) →
      ∀ c ∈ Nat.toDigitsCore 10 fuel n acc, c.isDigit = true
  | 0, _, acc, h => by simpa [Nat.toDigitsCore] using h
  | fuel + 1, n, acc, h => by
    have hacc : ∀ c ∈ Nat.digitChar (n % 10) :: acc, c.isDigit = true := by
      intro c hc
      rcases List.mem_cons.1 hc with rfl | hc
      · exact digitChar_isDigit n
      · exact h c hc
    simp only [Nat.toDigitsCore]
    split
    · exact hacc
    · exact toDigitsCore_isDigit fuel (n / 10) _ hacc

theorem toDigitsCore_ne_nil :
    ∀ (fuel n : Nat) (acc : List Char), Nat.toDigitsCore 10 (fuel + 1) n acc ≠ []
  | 0, n, acc => by
    simp only [Nat.toDigitsCore]
    split <;> simp
  | fuel + 1, n, acc => by
    rw [Nat.toDigitsCore]
    split
    · simp
    · exact toDigitsCore_ne_nil fuel (n / 10) _

theorem decimal_isDigit (n : Nat) : ∀ c ∈ decimal n, c.isDigit = true :=
  toDigitsCore_isDigit _ _ _ (by simp)

theorem decimal_ne_nil (n : Nat) : decimal n ≠ [] :=
  toDigitsCore_ne_nil _ _ _

theorem isPlain_of_isDigit {c : Char} (h : c.isDigit = true) : isPlain c = true := by
  simp [isPlain, h]

theorem numberToString_plain (x : Option Int) : ∀ c ∈ numberToString x, isPlain c = true := by
  intro c hc
  cases x with
  | none =>
    simp only [numberToString, List.mem_cons, List.mem_singleton] at hc
    rcases hc with rfl | rfl | rfl | hc
    · decide
    · decide
    · decide
    · simp at hc
  | some y =>
    cases y with
    | ofNat n => exact isPlain_of_isDigit (decimal_isDigit n c hc)
    | negSucc n =>
      rcases List.mem_cons.1 hc with rfl | hc
      · decide
      · exact isPlain_of_isDigit (decimal_isDigit _ c hc)

theorem numberToString_ne_nil (x : Option Int) : numberToString x ≠ [] := by
  cases x with
  | none => simp [numberToString]
  | some y =>
    cases y with
    | ofNat n => exact decimal_ne_nil n
    | negSucc n => simp [numberToString]

theorem padStart_plain {s : List Char} (hs : ∀ c ∈ s, isPlain c = true) (n : Nat) :
    ∀ c ∈ padStart s n '0', isPlain c = true := by
  intro c hc
  rcases List.mem_append.1 hc with hc | hc
  · rw [List.eq_of_mem_replicate hc]; decide
  · exact hs c hc

theorem padStart_ne_nil {s : List Char} (hs : s ≠ []) (n : Nat) : padStart s n '0' ≠ [] := by
  simp [padStart, hs]

theorem plain_not_letter {c : Char} (h : isPlain c = true) : c ∉ tokenLetters ∧ c ≠ '$' := by
  refine ⟨fun hm => ?_, fun e => ?_⟩
  · simp only [tokenLetters, List.mem_cons, List.mem_singleton] at hm
    rcases hm with rfl | rfl | rfl | rfl | rfl | rfl | hm
    · exact absurd h (by decide)
    · exact absurd h (by decide)
    · exact absurd h (by decide)
    · exact absurd h (by decide)
    · exact absurd h (by decide)
    · exact absurd h (by decide)
    · simp at hm
  · subst e; exact absurd h (by decide)

theorem fieldValues_plain (h : Host) (d : Option Int) :
    ∀ t ∈ fieldValues h d, (∀ c ∈ t.2, isPlain c = true) ∧ t.2 ≠ [] := by
  intro t ht
  simp only [fieldValues, List.mem_cons, List.mem_singleton, List.not_mem_nil, or_false] at ht
  rcases ht with rfl | rfl | rfl | rfl | rfl | rfl
  · exact ⟨numberToString_plain _, numberToString_ne_nil _⟩
  all_goals
    exact ⟨padStart_plain (numberToString_plain _) _, padStart_ne_nil (numberToString_ne_nil _) _⟩

theorem formatDate_of_truthy {h : Host} {date : JsValue} (ht : date.toBoolean = true)
    (format : List Char) :
    formatDate h date format = replaceChain (fieldValues h (newDate h date)) format := by
  simp [formatDate, ht]

theorem numberToString_natCast (n : Nat) : numberToString (some (n : Int)) = decimal n := rfl

theorem numberToString_natCast_succ (n : Nat) :
    numberToString (some ((n : Int) + 1)) = decimal (n + 1) := rfl

theorem fieldValues_some (h : Host) (t : Int) (hy : 0 ≤ (h.localTime t).year) :
    fieldValues h (some t) = tokenValues (h.localTime t) := by
  obtain ⟨n, hn⟩ := Int.eq_ofNat_of_zero_le hy
  simp only [fieldValues, tokenValues, Option.map_some', hn, Int.toNat_ofNat,
    numberToString_natCast, numberToString_natCast_succ]

theorem patDisjoint_symm {t u : List Char × List Char} (h : PatDisjoint t u) :
    PatDisjoint u t := fun c hc hct => h c hct hc

theorem WellSeparated.separated : ∀ {toks : List (List Char × List Char)},
    WellSeparated toks → Separated toks
  | [], _ => trivial
  | t :: ts, h => by
    have hp := List.pairwise_cons.1 h.pats
    have ht := h.ne t (by simp)
    refine ⟨ht.1, ht.2.1, ht.2.2, ?_, WellSeparated.separated
      ⟨fun u hu => h.ne u (List.mem_cons_of_mem _ hu),
       fun u hu w hw => h.vals u (List.mem_cons_of_mem _ hu) w (List.mem_cons_of_mem _ hw),
       hp.2⟩⟩
    intro u hu
    exact ⟨(h.ne u (List.mem_cons_of_mem _ hu)).1, hp.1 u hu,
      h.vals t (by simp) u (List.mem_cons_of_mem _ hu)⟩

theorem WellSeparated.perm {toks toks' : List (List Char × List Char)}
    (hperm : toks'.Perm toks) (h : WellSeparated toks) : WellSeparated toks' :=
  ⟨fun t ht => h.ne t (hperm.mem_iff.1 ht),
   fun t ht u hu => h.vals t (hperm.mem_iff.1 ht) u (hperm.mem_iff.1 hu),
   (List.Perm.pairwise_iff (fun hxy => patDisjoint_symm hxy) hperm).2 h.pats⟩

theorem getElem?_of_indexOf {p f : List Char} {i : Nat} (h : indexOf p f = some i) :
    p.head? = none ∨ f[i]? = p.head? := by
  cases p with
  | nil => exact Or.inl rfl
  | cons x xs =>
    right
    have hs := indexOf_split f i h
    have hb := indexOf_bound f i h
    have hl : (f.take i).length = i := by rw [List.length_take]; omega
    rw [hs, List.append_assoc, List.getElem?_append_right (by omega), hl]
    simp

theorem startsAt_unique {toks : List (List Char × List Char)} (h : WellSeparated toks)
    (f : List Char) (i : Nat) {t u : List Char × List Char} (ht : t ∈ toks) (hu : u ∈ toks)
    (h1 : startsAt t.1 f i = true) (h2 : startsAt u.1 f i = true) : t = u := by
  by_contra hne
  have hd : PatDisjoint t u :=
    h.pats.forall (fun _ _ hxy => patDisjoint_symm hxy) ht hu hne
  have e1 : indexOf t.1 f = some i := by simpa [startsAt] using h1
  have e2 : indexOf u.1 f = some i := by simpa [startsAt] using h2
  have n1 := (h.ne t ht).1
  have n2 := (h.ne u hu).1
  cases ht1 : t.1 with
  | nil => exact n1 ht1
  | cons x xs =>
    cases hu1 : u.1 with
    | nil => exact n2 hu1
    | cons y ys =>
      rw [ht1] at e1
      rw [hu1] at e2
      have g1 := getElem?_of_indexOf e1
      have g2 := getElem?_of_indexOf e2
      simp only [List.head?_cons, reduceCtorEq, false_or] at g1 g2
      have hxy : x = y := by
        rw [g1] at g2; exact Option.some.inj g2
      exact hd x (by rw [ht1]; simp) (by rw [hu1]; simp [hxy])

theorem find?_perm_of_unique {α : Type} {P : α → Bool} {l l' : List α} (hperm : l'.Perm l)
    (huniq : ∀ x ∈ l, ∀ y ∈ l, P x = true → P y = true → x = y) :
    l'.find? P = l.find? P := by
  cases h : l.find? P with
  | none =>
    rw [List.find?_eq_none] at h ⊢
    exact fun x hx => h x (hperm.mem_iff.1 hx)
  | some x =>
    have hx := List.mem_of_find?_eq_some h
    have hPx := List.find?_some h
    cases h' : l'.find? P with
    | none =>
      rw [List.find?_eq_none] at h'
      exact absurd hPx (h' x (hperm.mem_iff.2 hx))
    | some y =>
      have hy := hperm.mem_iff.1 (List.mem_of_find?_eq_some h')
      rw [huniq y hy x hx (List.find?_some h') hPx]

theorem any_perm {α : Type} {P : α → Bool} {l l' : List α} (hperm : l'.Perm l) :
    l'.any P = l.any P := by
  rw [Bool.eq_iff_iff, List.any_eq_true, List.any_eq_true]
  exact ⟨fun ⟨x, hx, hp⟩ => ⟨x, hperm.mem_iff.1 hx, hp⟩,
    fun ⟨x, hx, hp⟩ => ⟨x, hperm.mem_iff.2 hx, hp⟩⟩

theorem substituteLeftmost_perm {toks toks' : List (List Char × List Char)}
    (hperm : toks'.Perm toks) (h : WellSeparated toks) (f : List Char) :
    substituteLeftmost toks' f = substituteLeftmost toks f := by
  unfold substituteLeftmost
  refine List.flatMap_congr (fun i _ => ?_)
  simp only [substituteAt, tokenStartingAt_eq, insideToken_eq]
  have e1 : toks'.find? (fun t => startsAt t.1 f i) = toks.find? (fun t => startsAt t.1 f i) :=
    find?_perm_of_unique hperm (fun x hx y hy => startsAt_unique h f i hx hy)
  have e2 : toks'.any (fun t => coveredBy t.1 f i) = toks.any (fun t => coveredBy t.1 f i) :=
    any_perm hperm
  simp only [e1, e2]

theorem fieldValues_wellSeparated (h : Host) (d : Option Int) :
    WellSeparated (fieldValues h d) := by
  have hpl := fieldValues_plain h d
  have hlet : ∀ u ∈ fieldValues h d, ∀ x ∈ u.1, x ∈ tokenLetters := by
    intro u hu
    simp only [fieldValues, List.mem_cons, List.mem_singleton, List.not_mem_nil, or_false] at hu
    rcases hu with rfl | rfl | rfl | rfl | rfl | rfl <;> dsimp only <;> decide
  refine ⟨fun t ht => ⟨?_, (hpl t ht).2, fun hm => (plain_not_letter ((hpl t ht).1 _ hm)).2 rfl⟩,
    fun t ht u hu c hc hcu => (plain_not_letter ((hpl t ht).1 c hc)).1 (hlet u hu c hcu), ?_⟩
  · simp only [fieldValues, List.mem_cons, List.mem_singleton, List.not_mem_nil, or_false] at ht
    rcases ht with rfl | rfl | rfl | rfl | rfl | rfl <;> simp
  · simp only [fieldValues, List.pairwise_cons, List.mem_cons, List.mem_singleton,
      List.not_mem_nil, or_false, forall_eq_or_imp, forall_eq, PatDisjoint,
      List.Pairwise.nil, and_true, false_imp_iff, implies_true]
    decide

/-- Any order of the replacement steps gives the same string. -/
theorem replaceChain_perm {toks toks' : List (List Char × List Char)}
    (hperm : toks'.Perm toks) (h : WellSeparated toks) (f : List Char) :
    replaceChain toks' f = replaceChain toks f := by
  rw [replaceChain_eq_substituteLeftmost _ (h.perm hperm).separated,
    replaceChain_eq_substituteLeftmost _ h.separated, substituteLeftmost_perm hperm h]

theorem fieldValues_separated (h : Host) (d : Option Int) : Separated (fieldValues h d) :=
  (fieldValues_wellSeparated h d).separated

theorem toDigitsCore_step (fuel n : Nat) (acc : List Char) :
    Nat.toDigitsCore 10 (fuel + 1) n acc =
      if n / 10 = 0 then Nat.digitChar (n % 10) :: acc
      else Nat.toDigitsCore 10 fuel (n / 10) (Nat.digitChar (n % 10) :: acc) := by
  rw [Nat.toDigitsCore]

theorem decimal_lt_ten {n : Nat} (h : n < 10) : decimal n = [Nat.digitChar (n % 10)] := by
  have h0 : n / 10 = 0 := by omega
  rw [decimal, Nat.toDigits, toDigitsCore_step, if_pos h0]

theorem decimal_two {n : Nat} (h1 : 10 ≤ n) (h2 : n ≤ 99) :
    decimal n = [Nat.digitChar (n / 10 % 10), Nat.digitChar (n % 10)] := by
  obtain ⟨k, rfl⟩ : ∃ k, n = k + 1 := ⟨n - 1, by omega⟩
  have h0 : ¬ ((k + 1) / 10 = 0) := by omega
  have h3 : (k + 1) / 10 / 10 = 0 := by omega
  rw [decimal, Nat.toDigits, toDigitsCore_step, if_neg h0, toDigitsCore_step, if_pos h3]

theorem decimal_four {n : Nat} (h1 : 1000 ≤ n) (h2 : n ≤ 9999) :
    decimal n = [Nat.digitChar (n / 10 / 10 / 10 % 10), Nat.digitChar (n / 10 / 10 % 10),
      Nat.digitChar (n / 10 % 10), Nat.digitChar (n % 10)] := by
  obtain ⟨k, rfl⟩ : ∃ k, n = k + 3 := ⟨n - 3, by omega⟩
  have h0 : ¬ ((k + 3) / 10 = 0) := by omega
  have h3 : ¬ ((k + 3) / 10 / 10 = 0) := by omega
  have h4 : ¬ ((k + 3) / 10 / 10 / 10 = 0) := by omega
  have h5 : (k + 3) / 10 / 10 / 10 / 10 = 0 := by omega
  rw [decimal, Nat.toDigits, toDigitsCore_step, if_neg h0, toDigitsCore_step, if_neg h3,
    toDigitsCore_step, if_neg h4, toDigitsCore_step, if_pos h5]

theorem padStart_two {n : Nat} (h : n ≤ 99) :
    ∃ a b : Char, padStart (decimal n) 2 '0' = [a, b] ∧ a.isDigit = true ∧ b.isDigit = true := by
  by_cases hn : n < 10
  · exact ⟨'0', Nat.digitChar (n % 10), by rw [decimal_lt_ten hn]; rfl, by decide,
      digitChar_isDigit n⟩
  · exact ⟨_, _, by rw [decimal_two (by omega) h]; rfl, digitChar_isDigit _, digitChar_isDigit _⟩

/-- The default format after all six replacements. -/
theorem replaceChain_default {v1 v2 v3 v4 v5 v6 : List Char}
    (h1 : ∀ c ∈ v1, isPlain c = true) (h2 : ∀ c ∈ v2, isPlain c = true)
    (h3 : ∀ c ∈ v3, isPlain c = true) :
    replaceChain [("YYYY".toList, v1), ("MM".toList, v2), ("DD".toList, v3),
      ("HH".toList, v4), ("mm".toList, v5), ("ss".toList, v6)] DATE_FORMAT
      = v1 ++ '-' :: v2 ++ '-' :: v3 := by
  have nd : ∀ {v : List Char}, (∀ c ∈ v, isPlain c = true) → '$' ∉ v :=
    fun hv hm => (plain_not_letter (hv _ hm)).2 rfl
  have np : ∀ {v q : List Char}, (∀ c ∈ v, isPlain c = true) → (∀ x ∈ q, x ∈ tokenLetters) →
      ∀ c ∈ v, c ∉ q := fun hv hq c hc hcq => (plain_not_letter (hv c hc)).1 (hq c hcq)
  have hdash : isPlain '-' = true := by decide
  have e1 : jsReplace "YYYY".toList v1 DATE_FORMAT = v1 ++ "-MM-DD".toList := by
    have := jsReplace_at (p := "YYYY".toList) (v := v1) [] "-MM-DD".toList (by decide)
      (by simp) (nd h1)
    simpa using this
  have p1 : ∀ c ∈ v1 ++ ['-'], isPlain c = true := by
    intro c hc
    rcases List.mem_append.1 hc with hc | hc
    · exact h1 c hc
    · rw [List.mem_singleton.1 hc]; exact hdash
  have e2 : jsReplace "MM".toList v2 (v1 ++ "-MM-DD".toList)
      = v1 ++ ['-'] ++ v2 ++ "-DD".toList := by
    have := jsReplace_at (p := "MM".toList) (v := v2) (v1 ++ ['-']) "-DD".toList (by decide)
      (np p1 (by decide)) (nd h2)
    rw [← this]; simp
  have p2 : ∀ c ∈ v1 ++ ['-'] ++ v2 ++ ['-'], isPlain c = true := by
    intro c hc
    rcases List.mem_append.1 hc with hc | hc
    · rcases List.mem_append.1 hc with hc | hc
      · exact p1 c hc
      · exact h2 c hc
    · rw [List.mem_singleton.1 hc]; exact hdash
  have e3 : jsReplace "DD".toList v3 (v1 ++ ['-'] ++ v2 ++ "-DD".toList)
      = v1 ++ ['-'] ++ v2 ++ ['-'] ++ v3 := by
    have := jsReplace_at (p := "DD".toList) (v := v3) (v1 ++ ['-'] ++ v2 ++ ['-']) []
      (by decide) (np p2 (by decide)) (nd h3)
    rw [List.append_nil, List.append_nil] at this
    rw [← this]; simp
  have p3 : ∀ c ∈ v1 ++ ['-'] ++ v2 ++ ['-'] ++ v3, isPlain c = true := by
    intro c hc
    rcases List.mem_append.1 hc with hc | hc
    · exact p2 c hc
    · exact h3 c hc
  have e4 : ∀ {q v : List Char}, q ≠ [] → (∀ x ∈ q, x ∈ tokenLetters) →
      jsReplace q v (v1 ++ ['-'] ++ v2 ++ ['-'] ++ v3) = v1 ++ ['-'] ++ v2 ++ ['-'] ++ v3 :=
    fun hq hl => jsReplace_eq_of_indexOf_none
      (indexOf_eq_none_of_disjoint hq _ (np p3 hl))
  simp only [replaceChain, List.foldl_cons, List.foldl_nil, e1, e2, e3]
  rw [e4 (by decide) (by decide), e4 (by decide) (by decide), e4 (by decide) (by decide)]
  simp

theorem substituteLeftmost_of_absent (toks : List (List Char × List Char)) (f : List Char)
    (h : ∀ t ∈ toks, indexOf t.1 f = none) : substituteLeftmost toks f = f := by
  have : ∀ i, substituteAt toks f i = f[i]?.toList := by
    intro i
    have hf : toks.find? (fun t => startsAt t.1 f i) = none := by
      rw [List.find?_eq_none]; intro t ht; simp [startsAt, h t ht]
    have ha : toks.any (fun t => coveredBy t.1 f i) = false := by
      rw [List.any_eq_false]; intro t ht; simp [coveredBy, h t ht]
    simp only [substituteAt, tokenStartingAt_eq, insideToken_eq, hf, ha]
    simp
  rw [substituteLeftmost, funext this, flatMap_getElem?_range]

/-- The default format for a truthy date with a valid time value. -/
theorem formatDate_default_eq (h : Host) (date : JsValue) (t : Int)
    (htruthy : date.toBoolean = true) (hdate : newDate h date = some t) :
    formatDate h date =
        numberToString (some (h.localTime t).year) ++ '-' ::
          padStart (decimal ((h.localTime t).month + 1)) 2 '0' ++ '-' ::
          padStart (decimal (h.localTime t).date) 2 '0' := by
  rw [formatDate_of_truthy htruthy, hdate]
  simp only [fieldValues, Option.map_some', numberToString_natCast,
    numberToString_natCast_succ]
  exact replaceChain_default (numberToString_plain _)
    (padStart_plain (fun c hc => isPlain_of_isDigit (decimal_isDigit _ c hc)) _)
    (padStart_plain (fun c hc => isPlain_of_isDigit (decimal_isDigit _ c hc)) _)

/-- C1: for every truthy `date` whose `new Date(date)` is valid with local calendar
fields year `y`, month `mo = getMonth() + 1` and day `d`, `Utils.formatDate(date)` with
the default format is `String(y)`, a dash, `mo` padded to width 2, a dash, `d` padded to
width 2; for `1000 ≤ y ≤ 9999`, `mo ≤ 12` and `d ≤ 31` the result has exactly 10
characters of the shape `dddd-dd-dd`; and 5 March 2024 gives `2024-03-05`. -/
theorem formatDate_default_format (h : Host) (date : JsValue) (t : Int)
    (htruthy : date.toBoolean = true) (hdate : newDate h date = some t) :
    formatDate h date =
        numberToString (some (h.localTime t).year) ++ '-' ::
          padStart (decimal ((h.localTime t).month + 1)) 2 '0' ++ '-' ::
          padStart (decimal (h.localTime t).date) 2 '0' ∧
    (0 ≤ (h.localTime t).year →
      numberToString (some (h.localTime t).year) = decimal (h.localTime t).year.toNat) ∧
    (1000 ≤ (h.localTime t).year → (h.localTime t).year ≤ 9999 →
      (h.localTime t).month + 1 ≤ 12 → (h.localTime t).date ≤ 31 →
      (formatDate h date).length = 10 ∧ isDateShape (formatDate h date) = true) ∧
    ((h.localTime t).year = 2024 → (h.localTime t).month + 1 = 3 → (h.localTime t).date = 5 →
      formatDate h date = "2024-03-05".toList) := by
  have main := formatDate_default_eq h date t htruthy hdate
  refine ⟨main, ?_, ?_, ?_⟩
  · intro hy
    obtain ⟨n, hn⟩ := Int.eq_ofNat_of_zero_le hy
    rw [hn]; rfl
  · intro hy1 hy2 hm hd
    obtain ⟨n, hn⟩ := Int.eq_ofNat_of_zero_le (show 0 ≤ (h.localTime t).year by omega)
    obtain ⟨a, b, hab, ha, hb⟩ := padStart_two (show (h.localTime t).month + 1 ≤ 99 by omega)
    obtain ⟨c, d, hcd, hc, hd'⟩ := padStart_two (show (h.localTime t).date ≤ 99 by omega)
    have hy : numberToString (some (h.localTime t).year) = decimal n := by rw [hn]; rfl
    rw [main, hy, hab, hcd, decimal_four (by omega) (by omega)]
    simp [isDateShape, digitChar_isDigit, ha, hb, hc, hd']
  · intro hy hm hd
    rw [main, hy, hm, hd]
    decide

theorem tokenValues_wellSeparated (h : Host) (t : Int) (hyear : 0 ≤ (h.localTime t).year) :
    WellSeparated (tokenValues (h.localTime t)) := by
  rw [← fieldValues_some h t hyear]
  exact fieldValues_wellSeparated h (some t)

/-- C6: for every format string and every truthy date with a valid time value and a
non-negative year, the six chained `replace` calls of `Utils.formatDate` give the string
obtained from the format by replacing, for each of the six tokens, only the leftmost
occurrence of that token in the original format by its value (year unpadded, the others
padded to width 2) and keeping every other character; the same string results from the
six replacements taken in any order; a format containing none of the tokens is returned
unchanged; and `YYYY-MM-DD HH:mm:ss` yields `2024-03-05 07:08:09` for that moment. -/
theorem formatDate_token_substitution (h : Host) (date : JsValue) (t : Int)
    (format : List Char) (htruthy : date.toBoolean = true) (hdate : newDate h date = some t)
    (hyear : 0 ≤ (h.localTime t).year) :
    formatDate h date format = substituteLeftmost (tokenValues (h.localTime t)) format ∧
    (∀ steps : List (List Char × List Char), steps.Perm (tokenValues (h.localTime t)) →
      replaceChain steps format = formatDate h date format) ∧
    ((∀ tok ∈ TOKENS, indexOf tok format = none) → formatDate h date format = format) ∧
    (h.localTime t = ⟨2024, 2, 5, 7, 8, 9⟩ →
      formatDate h date "YYYY-MM-DD HH:mm:ss".toList = "2024-03-05 07:08:09".toList) := by
  have hchain : ∀ f : List Char,
      formatDate h date f = replaceChain (tokenValues (h.localTime t)) f := by
    intro f
    rw [formatDate_of_truthy htruthy, hdate, fieldValues_some h t hyear]
  have hws := tokenValues_wellSeparated h t hyear
  have main : ∀ f : List Char,
      formatDate h date f = substituteLeftmost (tokenValues (h.localTime t)) f := by
    intro f
    rw [hchain, replaceChain_eq_substituteLeftmost _ hws.separated]
  refine ⟨main format, ?_, ?_, ?_⟩
  · intro steps hperm
    rw [hchain, replaceChain_perm hperm hws]
  · intro habs
    rw [main]
    apply substituteLeftmost_of_absent
    intro tk htk
    apply habs
    simp only [tokenValues, List.mem_cons, List.mem_singleton, List.not_mem_nil, or_false] at htk
    rcases htk with rfl | rfl | rfl | rfl | rfl | rfl <;> simp [TOKENS]
  · intro hp
    rw [main, hp]
    decide

/-- C7: for a target date with a valid time value and `diff = now - target` in whole
milliseconds, `Utils.formatRelativeTime` returns the text of exactly the range `diff`
falls in: below 60000 (every negative `diff` included) the word for "just now"; from
60000 up to 3600000 the floor of `diff / 60000`, a number in 1..59, followed by the
minutes suffix; from 3600000 up to 86400000 the floor of `diff / 3600000`, in 1..23,
followed by the hours suffix; from 86400000 up to 604800000 the floor of
`diff / 86400000`, in 1..6, followed by the days suffix; and from 604800000 on
`Utils.formatDate(date)` with the default format. -/
theorem formatRelativeTime_ranges (h : Host) (date : JsValue) (target : Int)
    (hdate : newDate h date = some target) :
    (h.now - target < 60000 → formatRelativeTime h date = "刚刚".toList) ∧
    (60000 ≤ h.now - target → h.now - target < 3600000 →
      formatRelativeTime h date
        = decimal (Int.fdiv (h.now - target) 60000).toNat ++ "分钟前".toList ∧
      1 ≤ Int.fdiv (h.now - target) 60000 ∧ Int.fdiv (h.now - target) 60000 ≤ 59) ∧
    (3600000 ≤ h.now - target → h.now - target < 86400000 →
      formatRelativeTime h date
        = decimal (Int.fdiv (h.now - target) 3600000).toNat ++ "小时前".toList ∧
      1 ≤ Int.fdiv (h.now - target) 3600000 ∧ Int.fdiv (h.now - target) 3600000 ≤ 23) ∧
    (86400000 ≤ h.now - target → h.now - target < 604800000 →
      formatRelativeTime h date
        = decimal (Int.fdiv (h.now - target) 86400000).toNat ++ "天前".toList ∧
      1 ≤ Int.fdiv (h.now - target) 86400000 ∧ Int.fdiv (h.now - target) 86400000 ≤ 6) ∧
    (604800000 ≤ h.now - target → formatRelativeTime h date = formatDate h date) := by
  have e1 : Int.fdiv (h.now - target) 60000 = (h.now - target) / 60000 :=
    Int.fdiv_eq_ediv _ (by decide)
  have e2 : Int.fdiv (h.now - target) 3600000 = (h.now - target) / 3600000 :=
    Int.fdiv_eq_ediv _ (by decide)
  have e3 : Int.fdiv (h.now - target) 86400000 = (h.now - target) / 86400000 :=
    Int.fdiv_eq_ediv _ (by decide)
  have hs : ∀ x : Int, 0 ≤ x → numberToString (some x) = decimal x.toNat := by
    intro x hx
    obtain ⟨n, rfl⟩ := Int.eq_ofNat_of_zero_le hx
    rfl
  simp only [formatRelativeTime, hdate, e1, e2, e3]
  refine ⟨?_, ?_, ?_, ?_, ?_⟩
  · intro hd
    rw [if_pos (by omega)]
  · intro h1 h2
    rw [if_neg (by omega), if_pos (by omega), hs _ (by omega)]
    exact ⟨rfl, by omega, by omega⟩
  · intro h1 h2
    rw [if_neg (by omega), if_neg (by omega), if_pos (by omega), hs _ (by omega)]
    exact ⟨rfl, by omega, by omega⟩
  · intro h1 h2
    rw [if_neg (by omega), if_neg (by omega), if_neg (by omega), if_pos (by omega),
      hs _ (by omega)]
    exact ⟨rfl, by omega, by omega⟩
  · intro h1
    rw [if_neg (by omega), if_neg (by omega), if_neg (by omega), if_neg (by omega)]

/-- C8: the numeric timestamp `0` is a valid date (`new Date(0)` is the epoch), yet
`Utils.formatDate(0, format)` is the empty string for every format, because the guard
`!date` also holds for the number zero; every other numeric timestamp within the range
of valid time values is formatted to the non-empty `YYYY-MM-DD` string of its local
date. -/
theorem formatDate_zero_timestamp (h : Host) (format : List Char) :
    newDate h (.number 0) = some 0 ∧ formatDate h (.number 0) format = [] ∧
    (∀ t : Int, t ≠ 0 → t.natAbs ≤ 8640000000000000 →
      formatDate h (.number t) =
        numberToString (some (h.localTime t).year) ++ '-' ::
          padStart (decimal ((h.localTime t).month + 1)) 2 '0' ++ '-' ::
          padStart (decimal (h.localTime t).date) 2 '0' ∧
      formatDate h (.number t) ≠ []) := by
  refine ⟨rfl, rfl, ?_⟩
  intro t ht hrange
  have htruthy : (JsValue.number t).toBoolean = true := by
    simp [JsValue.toBoolean, ht]
  have hdate : newDate h (.number t) = some t := by
    simp [newDate, timeClip, hrange]
  have main := formatDate_default_eq h (.number t) t htruthy hdate
  refine ⟨main, ?_⟩
  rw [main]
  intro hnil
  have := congrArg List.length hnil
  simp at this

theorem formatDate_default_format_witness :
    (JsValue.number 1709622489000).toBoolean = true ∧
    newDate (utcHost 0) (.number 1709622489000) = some 1709622489000 ∧
    formatDate (utcHost 0) (.number 1709622489000) = "2024-03-05".toList :=
  ⟨by decide, by decide,
    (formatDate_default_format (utcHost 0) (.number 1709622489000) 1709622489000
      (by decide) (by decide)).2.2.2 (by decide) (by decide) (by decide)⟩

theorem formatDate_token_substitution_witness :
    (JsValue.number 1709622489000).toBoolean = true ∧
    newDate (utcHost 0) (.number 1709622489000) = some 1709622489000 ∧
    0 ≤ (utcTime 1709622489000).year ∧
    formatDate (utcHost 0) (.number 1709622489000) "YYYY-MM-DD HH:mm:ss".toList
      = "2024-03-05 07:08:09".toList :=
  ⟨by decide, by decide, by decide,
    (formatDate_token_substitution (utcHost 0) (.number 1709622489000) 1709622489000
      "YYYY-MM-DD HH:mm:ss".toList (by decide) (by decide) (by decide)).2.2.2 (by decide)⟩

theorem formatRelativeTime_ranges_witness :
    newDate (utcHost 1709622614000) (.number 1709622489000) = some 1709622489000 ∧
    formatRelativeTime (utcHost 1709622614000) (.number 1709622489000) = "2分钟前".toList :=
  ⟨by decide,
    ((formatRelativeTime_ranges (utcHost 1709622614000) (.number 1709622489000) 1709622489000
      (by decide)).2.1 (by decide) (by decide)).1⟩

/-! ## The request wrapper -/

theorem Props.get_set (o : Props) (k k' : String) (v : OptValue) :
    (Props.set o k' v).get k = if k' = k then some v else o.get k := by
  induction o with
  | nil => simp [Props.set, Props.get]
  | cons kv rest ih =>
    obtain ⟨k0, v0⟩ := kv
    by_cases h0 : k0 = k'
    · subst h0
      by_cases h1 : k0 = k <;> simp [Props.set, Props.get, h1]
    · by_cases h1 : k0 = k
      · subst h1
        have : ¬ (k' = k0) := fun e => h0 e.symm
        simp [Props.set, Props.get, h0, this]
      · simp [Props.set, Props.get, h0, h1, ih]

theorem Props.get_eq_none_of_not_mem (o : Props) (k : String) (h : k ∉ o.map Prod.fst) :
    o.get k = none := by
  induction o with
  | nil => rfl
  | cons kv rest ih =>
    obtain ⟨k0, v0⟩ := kv
    simp only [List.map_cons, List.mem_cons, not_or] at h
    have h0 : ¬ (k0 = k) := fun e => h.1 e.symm
    simp [Props.get, h0, ih h.2]

/-- Writing a key other than `k` with `[[Set]]` leaves the own property `k` alone, and
writing `k` itself sets it, unless `k` is `__proto__`. -/
theorem Obj.get_set_of_ne (o : Obj) (k k' : String) (v : OptValue) (hk : k ≠ "__proto__") :
    (o.set k' v).get k = if k' = k then some v else o.get k := by
  unfold Obj.set
  split
  · rename_i hc
    have hne : ¬ (k' = k) := fun e => hk (e ▸ hc.1)
    rw [if_neg hne]
    cases v <;> rfl
  · exact Props.get_set o.props k k' v

theorem Obj.get_proto_set_of_ne (o : Obj) (k' : String) (v : OptValue)
    (hk : k' ≠ "__proto__") :
    (o.set k' v).get "__proto__" = o.get "__proto__" ∧ (o.set k' v).proto = o.proto := by
  unfold Obj.set
  rw [if_neg (fun hc => hk hc.1)]
  refine ⟨?_, rfl⟩
  show (Props.set o.props k' v).get "__proto__" = o.props.get "__proto__"
  rw [Props.get_set, if_neg hk]

theorem foldl_set_get_proto (src : Props) (hne : ∀ kv ∈ src, kv.1 ≠ "__proto__") :
    ∀ target : Obj, (src.foldl (fun t kv => t.set kv.1 kv.2) target).get "__proto__"
      = target.get "__proto__" := by
  induction src with
  | nil => intro target; rfl
  | cons kv rest ih =>
    intro target
    rw [List.foldl_cons, ih (fun x hx => hne x (List.mem_cons_of_mem _ hx)),
      (Obj.get_proto_set_of_ne target kv.1 kv.2 (hne kv (List.mem_cons_self _ _))).1]

/-- `Object.assign` never gives its target an own property `__proto__`. -/
theorem objectAssign_get_proto (source : Obj) (hnodup : (source.props.map Prod.fst).Nodup) :
    ∀ target : Obj, target.get "__proto__" = none →
      target.proto.hasData "__proto__" = false →
      (objectAssign target source).get "__proto__" = none := by
  obtain ⟨src, sp⟩ := source
  simp only at hnodup
  unfold objectAssign
  simp only
  induction src with
  | nil => intro target h _; exact h
  | cons kv rest ih =>
    intro target hown hproto
    simp only [List.map_cons, List.nodup_cons] at hnodup
    rw [List.foldl_cons]
    by_cases hk : kv.1 = "__proto__"
    · have hrest : ∀ x ∈ rest, x.1 ≠ "__proto__" := by
        intro x hx e
        exact hnodup.1 (List.mem_map.2 ⟨x, hx, e.trans hk.symm⟩)
      rw [foldl_set_get_proto rest hrest]
      have hc : kv.1 = "__proto__" ∧ target.props.get kv.1 = none ∧
          target.proto.hasData kv.1 = false := by
        rw [hk]; exact ⟨rfl, hown, hproto⟩
      unfold Obj.set
      rw [if_pos hc]
      cases kv.2 <;> exact hown
    · have h1 := Obj.get_proto_set_of_ne target kv.1 kv.2 hk
      exact ih hnodup.2 _ (h1.1.trans hown) (h1.2 ▸ hproto)

theorem objectAssign_get (source : Obj) (hnodup : (source.props.map Prod.fst).Nodup)
    (k : String) (hk : k ≠ "__proto__") :
    ∀ target : Obj, (objectAssign target source).get k =
      match source.get k with
      | some v => some v
      | none => target.get k := by
  obtain ⟨src, sp⟩ := source
  simp only at hnodup
  unfold objectAssign
  simp only [Obj.get]
  induction src with
  | nil => intro target; simp [Props.get]
  | cons kv rest ih =>
    intro target
    obtain ⟨k0, v0⟩ := kv
    simp only [List.map_cons, List.nodup_cons] at hnodup
    rw [List.foldl_cons, ih hnodup.2]
    have hs := Obj.get_set_of_ne target k k0 v0 hk
    simp only [Obj.get] at hs
    rw [hs]
    by_cases h0 : k0 = k
    · subst h0
      simp [Props.get, Props.get_eq_none_of_not_mem rest k0 hnodup.1]
    · simp [Props.get, h0]

theorem buildConfig_eq (hp : Heap) (options : Option Obj) :
    buildConfig hp options = (hp ++ [requestConfig options], hp.length) := by
  unfold buildConfig Heap.assign
  simp [requestConfig]

section
variable {β : Type} (fetch : String → Obj → Except Reason (Response β)) (url : String)
  (options : Option Obj)

theorem request_of_fetch_error {e : Reason}
    (hf : fetch url (requestConfig options) = .error e) :
    request fetch url options = ⟨.error e, [.fetchCall url (requestConfig options),
      .consoleError "Request failed:" e]⟩ := by
  simp [request, Settled.orCatch, Settled.andThen, hf]

theorem request_of_not_ok {r : Response β}
    (hf : fetch url (requestConfig options) = .ok r) (hok : r.ok = false) :
    request fetch url options =
      ⟨.error (.error ("HTTP error! status: ".toList ++ decimal r.status)),
        [.fetchCall url (requestConfig options),
          .consoleError "Request failed:"
            (.error ("HTTP error! status: ".toList ++ decimal r.status))]⟩ := by
  simp [request, Settled.orCatch, Settled.andThen, hf, hok]

theorem request_of_json_ok {r : Response β} {v : β}
    (hf : fetch url (requestConfig options) = .ok r) (hok : r.ok = true)
    (hj : r.json = .ok v) :
    request fetch url options =
      ⟨.ok v, [.fetchCall url (requestConfig options), .jsonCall]⟩ := by
  simp [request, Settled.orCatch, Settled.andThen, hf, hok, hj]

theorem request_of_json_error {r : Response β} {e : Reason}
    (hf : fetch url (requestConfig options) = .ok r) (hok : r.ok = true)
    (hj : r.json = .error e) :
    request fetch url options =
      ⟨.error e, [.fetchCall url (requestConfig options), .jsonCall,
        .consoleError "Request failed:" e]⟩ := by
  simp [request, Settled.orCatch, Settled.andThen, hf, hok, hj]

theorem request_effects_head :
    (request fetch url options).effects.head?
      = some (.fetchCall url (requestConfig options)) := by
  cases hf : fetch url (requestConfig options) with
  | error e => rw [request_of_fetch_error fetch url options hf]; rfl
  | ok r =>
    cases hok : r.ok with
    | false => rw [request_of_not_ok fetch url options hf hok]; rfl
    | true =>
      cases hj : r.json with
      | error e => rw [request_of_json_error fetch url options hf hok hj]; rfl
      | ok v => rw [request_of_json_ok fetch url options hf hok hj]; rfl

end

/-- C9, refuted as stated: for the options record whose only own key is `__proto__`,
with the string value `x` (as `JSON.parse` produces it), `options` has the own key
`__proto__` but `config` has no such property: `Object.assign` writes with `[[Set]]`,
the write reaches the prototype setter, which ignores a string, and `config` is exactly
the defaults. -/
theorem requestConfig_proto_key_not_copied :
    (([("__proto__", OptValue.str "x")] : Props).map Prod.fst).Nodup ∧
    Obj.get { props := [("__proto__", .str "x")] } "__proto__" = some (.str "x") ∧
    (requestConfig (some { props := [("__proto__", .str "x")] })).get "__proto__" = none ∧
    requestConfig (some { props := [("__proto__", .str "x")] }) = defaultOptions := by
  decide

/-- C9, amended: for every options record (with distinct keys) and every key `k` other
than `__proto__`, the own property `k` of the `config` that `Utils.request` hands to
`fetch` is `options[k]` when `options` has the own key `k`, and otherwise that of the
defaults `method: 'GET'`, `headers: {Content-Type: application/json, X-Requested-With:
XMLHttpRequest}`, `credentials: 'same-origin'`; `config` never gets an own property
`__proto__`; a call without options sends exactly these defaults; `fetch` receives that
`config`; a supplied `headers` record replaces the default headers wholesale; and on
every heap, whatever earlier calls left there, the call creates one new object, equal to
the `config` computed from its own options alone, and changes no other object. -/
theorem requestConfig_shallow_override (options : Obj)
    (hkeys : (options.props.map Prod.fst).Nodup) :
    (∀ k : String, k ≠ "__proto__" → (requestConfig (some options)).get k =
      match options.get k with
      | some v => some v
      | none => Props.get
          [ ("method", .str "GET"),
            ("headers", .record [("Content-Type", "application/json"),
              ("X-Requested-With", "XMLHttpRequest")]),
            ("credentials", .str "same-origin") ] k) ∧
    (requestConfig (some options)).get "__proto__" = none ∧
    requestConfig none =
      { props :=
          [ ("method", .str "GET"),
            ("headers", .record [("Content-Type", "application/json"),
              ("X-Requested-With", "XMLHttpRequest")]),
            ("credentials", .str "same-origin") ],
        proto := .objectPrototype } ∧
    (∀ {β : Type} (fetch : String → Obj → Except Reason (Response β)) (url : String),
      (request fetch url).effects.head? = some (.fetchCall url (requestConfig none)) ∧
      (request fetch url (some options)).effects.head?
        = some (.fetchCall url (requestConfig (some options)))) ∧
    (∀ hs : OptValue, options.get "headers" = some hs →
      (requestConfig (some options)).get "headers" = some hs) ∧
    (∀ hp : Heap, buildConfig hp (some options)
        = (hp ++ [requestConfig (some options)], hp.length)) ∧
    (∀ (earlier : List (Option Obj)) (hp : Heap),
      (buildConfigs hp (earlier ++ [some options])).1
          = (buildConfigs hp earlier).1 ++ [requestConfig (some options)] ∧
      (buildConfigs hp (earlier ++ [some options])).2
          = (buildConfigs hp earlier).2 ++ [(buildConfigs hp earlier).1.length]) := by
  have main : ∀ k : String, k ≠ "__proto__" → (requestConfig (some options)).get k =
      match options.get k with
      | some v => some v
      | none => defaultOptions.get k :=
    fun k hk => objectAssign_get options hkeys k hk defaultOptions
  refine ⟨main, objectAssign_get_proto options hkeys defaultOptions rfl rfl, rfl, ?_, ?_,
    fun hp => buildConfig_eq hp _, ?_⟩
  · intro β fetch url
    exact ⟨request_effects_head fetch url none, request_effects_head fetch url (some options)⟩
  · intro hs h
    rw [main "headers" (by decide), h]
  · intro earlier hp
    unfold buildConfigs
    rw [List.foldl_append]
    simp [buildConfig_eq]

theorem requestConfig_shallow_override_witness :
    (([("headers", OptValue.record [("Accept", "text/html")]), ("method", .str "POST")] :
        Props).map Prod.fst).Nodup ∧
    (requestConfig (some { props := [("headers", .record [("Accept", "text/html")]),
        ("method", .str "POST")] })).get "headers" = some (.record [("Accept", "text/html")]) ∧
    (requestConfig (some { props := [("headers", .record [("Accept", "text/html")]),
        ("method", .str "POST")] })).get "credentials" = some (.str "same-origin") :=
  ⟨by decide,
    ((requestConfig_shallow_override
      { props := [("headers", .record [("Accept", "text/html")]), ("method", .str "POST")] }
      (by decide)).1 "headers" (by decide)).trans (by decide),
    ((requestConfig_shallow_override
      { props := [("headers", .record [("Accept", "text/html")]), ("method", .str "POST")] }
      (by decide)).1 "credentials" (by decide)).trans (by decide)⟩

/-- C2: with the outcomes of `fetch` and of `response.json()` modelled as `Except`
values, `Utils.request` resolves with `v` exactly when `fetch` resolved with a response
whose `ok` flag is true and whose `json()` resolved with `v`; when `ok` is false it
rejects with an `Error` whose message is `HTTP error! status: ` followed by the decimal
status, and `json()` is not called; when `fetch` or `json()` rejected with `e` it rejects
with that same `e`, after logging it. -/
theorem request_outcome {β : Type} (fetch : String → Obj → Except Reason (Response β))
    (url : String) (options : Option Obj) :
    (∀ v : β, (request fetch url options).outcome = .ok v ↔
      ∃ resp, fetch url (requestConfig options) = .ok resp ∧ resp.ok = true ∧
        resp.json = .ok v) ∧
    (∀ resp, fetch url (requestConfig options) = .ok resp → resp.ok = false →
      (request fetch url options).outcome
        = .error (.error ("HTTP error! status: ".toList ++ decimal resp.status)) ∧
      Effect.jsonCall ∉ (request fetch url options).effects) ∧
    (∀ e, fetch url (requestConfig options) = .error e →
      (request fetch url options).outcome = .error e ∧
      Effect.jsonCall ∉ (request fetch url options).effects ∧
      Effect.consoleError "Request failed:" e ∈ (request fetch url options).effects) ∧
    (∀ resp e, fetch url (requestConfig options) = .ok resp → resp.ok = true →
      resp.json = .error e →
      (request fetch url options).outcome = .error e ∧
      Effect.consoleError "Request failed:" e ∈ (request fetch url options).effects) := by
  refine ⟨?_, ?_, ?_, ?_⟩
  · intro v
    constructor
    · intro h
      cases hf : fetch url (requestConfig options) with
      | error e => rw [request_of_fetch_error fetch url options hf] at h; cases h
      | ok r =>
        cases hok : r.ok with
        | false => rw [request_of_not_ok fetch url options hf hok] at h; cases h
        | true =>
          cases hj : r.json with
          | error e => rw [request_of_json_error fetch url options hf hok hj] at h; cases h
          | ok w =>
            rw [request_of_json_ok fetch url options hf hok hj] at h
            cases h
            exact ⟨r, rfl, hok, hj⟩
    · rintro ⟨r, hf, hok, hj⟩
      rw [request_of_json_ok fetch url options hf hok hj]
  · intro resp hf hok
    rw [request_of_not_ok fetch url options hf hok]
    exact ⟨rfl, by simp⟩
  · intro e hf
    rw [request_of_fetch_error fetch url options hf]
    exact ⟨rfl, by simp, by simp⟩
  · intro resp e hf hok hj
    rw [request_of_json_error fetch url options hf hok hj]
    exact ⟨rfl, by simp⟩

theorem request_outcome_witness :
    (request (β := Nat) (fun _ _ => .ok ⟨false, 404, .ok 7⟩) "/api").outcome
        = .error (.error "HTTP error! status: 404".toList) ∧
    Effect.jsonCall ∉ (request (β := Nat) (fun _ _ => .ok ⟨false, 404, .ok 7⟩) "/api").effects :=
  (request_outcome (β := Nat) (fun _ _ => .ok ⟨false, 404, .ok 7⟩) "/api" none).2.1
    ⟨false, 404, .ok 7⟩ rfl rfl

/-! ## The document -/

namespace Forest

theorem preorder_append (f g : Forest) : (f.append g).preorder = f.preorder ++ g.preorder := by
  induction f with
  | nil => rfl
  | node e ch next _ ih => simp [append, preorder, ih]

theorem refs_append (f g : Forest) : (f.append g).refs = f.refs ++ g.refs := by
  simp [refs, preorder_append]

theorem roots_append (f g : Forest) : (f.append g).roots = f.roots ++ g.roots := by
  induction f with
  | nil => rfl
  | node e ch next _ ih => simp [append, roots, ih]

theorem refs_node (e : Element) (ch next : Forest) :
    (node e ch next).refs = e.ref :: (ch.refs ++ next.refs) := by
  simp [refs, preorder]

theorem appendChild_of_not_mem (c : Nat) (sub : Forest) :
    ∀ f : Forest, c ∉ f.refs → appendChild c sub f = f
  | nil, _ => rfl
  | node e ch next, h => by
    rw [refs_node] at h
    simp only [List.mem_cons, List.mem_append, not_or] at h
    have h0 : ¬ (e.ref = c) := fun e' => h.1 e'.symm
    simp [appendChild, h0, appendChild_of_not_mem c sub ch h.2.1,
      appendChild_of_not_mem c sub next h.2.2]

/-- Adding a child to the one element `c` inserts the new elements somewhere after `c`
in document order. -/
theorem preorder_appendChild (c : Nat) (sub : Forest) :
    ∀ f : Forest, f.refs.Nodup → c ∈ f.refs →
      ∃ l1 l2, f.preorder = l1 ++ l2 ∧ (∃ e ∈ l1, e.ref = c) ∧
        (appendChild c sub f).preorder = l1 ++ sub.preorder ++ l2
  | nil, _, hc => by simp [refs, preorder] at hc
  | node e ch next, hnd, hc => by
    rw [refs_node] at hnd hc
    have hnd' := List.nodup_cons.1 hnd
    have hsplit := List.nodup_append.1 hnd'.2
    by_cases h0 : e.ref = c
    · have hcn : c ∉ next.refs := fun hm => hnd'.1 (h0 ▸ List.mem_append_right _ hm)
      refine ⟨e :: ch.preorder, next.preorder, by simp [preorder], ⟨e, by simp, h0⟩, ?_⟩
      simp [appendChild, h0, preorder, preorder_append, appendChild_of_not_mem c sub next hcn]
    · have hc' : c ∈ ch.refs ∨ c ∈ next.refs := by
        rcases List.mem_cons.1 hc with h | h
        · exact absurd h.symm h0
        · exact List.mem_append.1 h
      rcases hc' with hch | hnx
      · have hcn : c ∉ next.refs := fun hm => hsplit.2.2 hch hm
        obtain ⟨a1, a2, e1, ⟨x, hx, hxc⟩, e2⟩ := preorder_appendChild c sub ch hsplit.1 hch
        refine ⟨e :: a1, a2 ++ next.preorder, by simp [preorder, e1],
          ⟨x, List.mem_cons_of_mem _ hx, hxc⟩, ?_⟩
        simp [appendChild, h0, preorder, e2, appendChild_of_not_mem c sub next hcn]
      · have hcc : c ∉ ch.refs := fun hm => hsplit.2.2 hm hnx
        obtain ⟨b1, b2, e1, ⟨x, hx, hxc⟩, e2⟩ := preorder_appendChild c sub next hsplit.2.1 hnx
        refine ⟨e :: (ch.preorder ++ b1), b2, by simp [preorder, e1],
          ⟨x, List.mem_cons_of_mem _ (List.mem_append_right _ hx), hxc⟩, ?_⟩
        simp [appendChild, h0, preorder, e2, appendChild_of_not_mem c sub ch hcc]

theorem childrenOf_eq_none_of_not_mem (c : Nat) :
    ∀ f : Forest, c ∉ f.refs → childrenOf c f = none
  | nil, _ => rfl
  | node e ch next, h => by
    rw [refs_node] at h
    simp only [List.mem_cons, List.mem_append, not_or] at h
    have h0 : ¬ (e.ref = c) := fun e' => h.1 e'.symm
    simp [childrenOf, h0, childrenOf_eq_none_of_not_mem c ch h.2.1,
      childrenOf_eq_none_of_not_mem c next h.2.2]

/-- The new elements become the last children of `c`. -/
theorem childrenOf_appendChild (c : Nat) (sub : Forest) :
    ∀ f : Forest, f.refs.Nodup → c ∈ f.refs →
      ∃ l, childrenOf c f = some l ∧ childrenOf c (appendChild c sub f) = some (l ++ sub.roots)
  | nil, _, hc => by simp [refs, preorder] at hc
  | node e ch next, hnd, hc => by
    rw [refs_node] at hnd hc
    have hnd' := List.nodup_cons.1 hnd
    have hsplit := List.nodup_append.1 hnd'.2
    by_cases h0 : e.ref = c
    · exact ⟨ch.roots, by simp [childrenOf, h0], by simp [appendChild, childrenOf, h0, roots_append]⟩
    · have hc' : c ∈ ch.refs ∨ c ∈ next.refs := by
        rcases List.mem_cons.1 hc with h | h
        · exact absurd h.symm h0
        · exact List.mem_append.1 h
      rcases hc' with hch | hnx
      · obtain ⟨l, e1, e2⟩ := childrenOf_appendChild c sub ch hsplit.1 hch
        exact ⟨l, by simp [childrenOf, h0, e1], by simp [appendChild, childrenOf, h0, e2]⟩
      · have hcc : c ∉ ch.refs := fun hm => hsplit.2.2 hm hnx
        obtain ⟨l, e1, e2⟩ := childrenOf_appendChild c sub next hsplit.2.1 hnx
        refine ⟨l, by simp [childrenOf, h0, e1, childrenOf_eq_none_of_not_mem c ch hcc], ?_⟩
        simp [appendChild, childrenOf, h0, e2, appendChild_of_not_mem c sub ch hcc,
          childrenOf_eq_none_of_not_mem c ch hcc]

theorem mem_refs_appendChild (c : Nat) (sub : Forest) :
    ∀ (f : Forest) (x : Nat), x ∈ (appendChild c sub f).refs → x ∈ f.refs ∨ x ∈ sub.refs
  | nil, x, h => by simp [appendChild, refs, preorder] at h
  | node e ch next, x, h => by
    by_cases h0 : e.ref = c
    · simp only [appendChild, h0, if_true, refs_node, refs_append, List.mem_cons,
        List.mem_append] at h ⊢
      rcases h with h | (h | h) | h
      · exact Or.inl (Or.inl (h0 ▸ h))
      · exact Or.inl (Or.inr (Or.inl h))
      · exact Or.inr h
      · rcases mem_refs_appendChild c sub next x h with h | h
        · exact Or.inl (Or.inr (Or.inr h))
        · exact Or.inr h
    · simp only [appendChild, h0, if_false, refs_node, List.mem_cons, List.mem_append] at h ⊢
      rcases h with h | h | h
      · exact Or.inl (Or.inl h)
      · rcases mem_refs_appendChild c sub ch x h with h | h
        · exact Or.inl (Or.inr (Or.inl h))
        · exact Or.inr h
      · rcases mem_refs_appendChild c sub next x h with h | h
        · exact Or.inl (Or.inr (Or.inr h))
        · exact Or.inr h

theorem mem_refs_remove (r : Nat) :
    ∀ (f : Forest) (x : Nat), x ∈ (remove r f).refs → x ∈ f.refs ∧ x ≠ r
  | nil, x, h => by simp [remove, refs, preorder] at h
  | node e ch next, x, h => by
    by_cases h0 : e.ref = r
    · simp only [remove, h0, if_true] at h
      have := mem_refs_remove r next x h
      rw [refs_node]
      exact ⟨List.mem_cons_of_mem _ (List.mem_append_right _ this.1), this.2⟩
    · simp only [remove, h0, if_false, refs_node, List.mem_cons, List.mem_append] at h ⊢
      rcases h with h | h | h
      · exact ⟨Or.inl h, fun hx => h0 (h ▸ hx)⟩
      · have := mem_refs_remove r ch x h
        exact ⟨Or.inr (Or.inl this.1), this.2⟩
      · have := mem_refs_remove r next x h
        exact ⟨Or.inr (Or.inr this.1), this.2⟩

theorem not_mem_refs_remove (r : Nat) (f : Forest) : r ∉ (remove r f).refs :=
  fun h => (mem_refs_remove r f r h).2 rfl

theorem contains_iff (r : Nat) (f : Forest) : f.contains r = true ↔ r ∈ f.refs := by
  simp [contains, refs]

theorem getElementById_eq_some {id : List Char} {f : Forest} {r : Nat}
    (h : f.getElementById id = some r) :
    ∃ e, f.preorder.find? (fun e => e.idAttr == some id) = some e ∧ e.ref = r := by
  unfold getElementById at h
  cases hf : f.preorder.find? (fun e => e.idAttr == some id) with
  | none => simp [hf] at h
  | some e => exact ⟨e, rfl, by simpa [hf] using h⟩

theorem mem_refs_of_getElementById {id : List Char} {f : Forest} {r : Nat}
    (h : f.getElementById id = some r) : r ∈ f.refs := by
  obtain ⟨e, he, her⟩ := getElementById_eq_some h
  exact List.mem_map.2 ⟨e, List.mem_of_find?_eq_some he, her⟩

end Forest

theorem toastIdAt_ne_container (k : Int) : toastIdAt k ≠ TOAST_CONTAINER := by
  intro h
  have e : TOAST_CONTAINER = "toast-".toList ++ "container".toList := by decide
  rw [toastIdAt, e] at h
  have h2 := List.append_cancel_left h
  have hc : 'c' ∈ numberToString (some k) := by rw [h2]; decide
  exact absurd (numberToString_plain _ _ hc) (by decide)

theorem find?_append_congr {α : Type} {p : α → Bool} {l1 : List α} (a b : List α)
    (h : ∃ e ∈ l1, p e = true) : (l1 ++ a).find? p = (l1 ++ b).find? p := by
  induction l1 with
  | nil => obtain ⟨e, he, _⟩ := h; simp at he
  | cons x l ih =>
    by_cases hx : p x = true
    · simp [List.find?, hx]
    · obtain ⟨e, he, hpe⟩ := h
      rcases List.mem_cons.1 he with rfl | he
      · exact absurd hpe hx
      · simp only [List.cons_append, List.find?, hx]
        exact ih ⟨e, he, hpe⟩

theorem showToast_of_plain {message type : List Char} (hm : isPlainText message = true)
    (ht : isPlainText type = true) (d : Nat) (pg : Page) :
    showToast message type d pg = showToastPlain message type d pg := by
  simp [showToast, hm, ht]

theorem confirm_of_plain {message : List Char} (hm : isPlainText message = true)
    (callback : Nat) (pg : Page) :
    confirm message callback pg = confirmPlain message callback pg := by
  simp [confirm, hm]

theorem showToast_fields (message type : List Char) (d : Nat) (pg : Page) :
    showToastPlain message type d pg =
      { (ensureContainer pg).2 with
        doc := Forest.appendChild (ensureContainer pg).1
          (toastTree (ensureContainer pg).2.nextRef (toastIdAt pg.clock) type message)
          (ensureContainer pg).2.doc,
        nextRef := (ensureContainer pg).2.nextRef + 4,
        toastShows := (ensureContainer pg).2.toastShows ++
          [((Forest.appendChild (ensureContainer pg).1
              (toastTree (ensureContainer pg).2.nextRef (toastIdAt pg.clock) type message)
              (ensureContainer pg).2.doc).getElementById (toastIdAt pg.clock), d)],
        timers := (ensureContainer pg).2.timers ++
          [(pg.clock + d + 1000, .removeToast
            ((Forest.appendChild (ensureContainer pg).1
              (toastTree (ensureContainer pg).2.nextRef (toastIdAt pg.clock) type message)
              (ensureContainer pg).2.doc).getElementById (toastIdAt pg.clock)))] } := rfl

theorem ensureContainer_markupSeen (pg : Page) :
    (ensureContainer pg).2.markupSeen = pg.markupSeen := by
  unfold ensureContainer
  cases pg.doc.getElementById TOAST_CONTAINER <;> rfl

theorem ensureContainer_spec (pg : Page) (hwf : pg.WF) :
    ContainerSpec pg (ensureContainer pg).1 (ensureContainer pg).2 := by
  unfold ensureContainer
  cases h : pg.doc.getElementById TOAST_CONTAINER with
  | some c =>
    exact ⟨hwf.1, hwf.2, h, fun _ _ => rfl, le_refl _, fun x hx => Or.inl hx, fun x hx => hx,
      rfl, rfl⟩
  | none =>
    have hfind : pg.doc.preorder.find? (fun e => e.idAttr == some TOAST_CONTAINER) = none := by
      unfold Forest.getElementById at h
      cases hf : pg.doc.preorder.find? (fun e => e.idAttr == some TOAST_CONTAINER) with
      | none => rfl
      | some e => simp [hf] at h
    have hn : pg.nextRef ∉ pg.doc.refs := fun hm => lt_irrefl _ (hwf.2 _ hm)
    refine ⟨?_, ?_, ?_, ?_, Nat.le_succ _, ?_, ?_, rfl, rfl⟩
    · simp only [Forest.refs_append, Forest.refs_node]
      simp only [Forest.refs, Forest.preorder, List.map_nil, List.append_nil]
      refine List.nodup_append.2 ⟨hwf.1, by simp, ?_⟩
      intro x hx hx'
      rw [List.mem_singleton.1 hx'] at hx
      exact hn hx
    · intro x hx
      simp only [Forest.refs_append, Forest.refs_node, List.mem_append] at hx
      rcases hx with hx | hx
      · exact Nat.lt_succ_of_lt (hwf.2 x hx)
      · simp [Forest.refs, Forest.preorder] at hx
        simp [hx]
    · simp [Forest.getElementById, Forest.preorder_append, Forest.preorder, List.find?_append,
        hfind]
    · intro id hid
      have hne : ¬ (TOAST_CONTAINER = id) := fun e => hid e.symm
      simp only [Forest.getElementById, Forest.preorder_append, Forest.preorder,
        List.find?_append]
      cases pg.doc.preorder.find? (fun e => e.idAttr == some id) with
      | some e => simp
      | none =>
        have hb : (TOAST_CONTAINER == id) = false := by simpa using hne
        simp [List.find?, hb]
    · intro x hx
      simp only [Forest.refs_append, Forest.refs_node, List.mem_append] at hx
      rcases hx with hx | hx
      · exact Or.inl hx
      · simp [Forest.refs, Forest.preorder] at hx
        exact Or.inr (by simp [hx])
    · intro x hx
      simp only [Forest.refs_append, List.mem_append]
      exact Or.inl hx

theorem toastTree_preorder (r : Nat) (id type message : List Char) :
    ∃ e rest, (toastTree r id type message).preorder = e :: rest ∧ e.ref = r ∧
      e.idAttr = some id :=
  ⟨_, _, rfl, rfl, rfl⟩

theorem toastTree_roots (r : Nat) (id type message : List Char) :
    (toastTree r id type message).roots = [r] := rfl

theorem toastTree_refs (r : Nat) (id type message : List Char) :
    (toastTree r id type message).refs = [r, r + 1, r + 2, r + 3] := rfl

theorem find?_eq_none_of_append {α : Type} {p : α → Bool} {l1 l2 : List α}
    (h : (l1 ++ l2).find? p = none) : l1.find? p = none := by
  rw [List.find?_eq_none] at h ⊢
  exact fun x hx => h x (List.mem_append_left _ hx)

theorem insert_spec (pg : Page) (hwf : pg.WF) (message type : List Char) :
    InsertSpec pg message type
      (Forest.appendChild (ensureContainer pg).1
        (toastTree (ensureContainer pg).2.nextRef (toastIdAt pg.clock) type message)
        (ensureContainer pg).2.doc) := by
  have hs := ensureContainer_spec pg hwf
  have hc := Forest.mem_refs_of_getElementById hs.found
  obtain ⟨l1, l2, hpre, ⟨ec, hec, hecr⟩, hpost⟩ := Forest.preorder_appendChild
    (ensureContainer pg).1
    (toastTree (ensureContainer pg).2.nextRef (toastIdAt pg.clock) type message)
    (ensureContainer pg).2.doc hs.nodup hc
  obtain ⟨te, trest, htp, hter, htid⟩ := toastTree_preorder (ensureContainer pg).2.nextRef
    (toastIdAt pg.clock) type message
  have hl1 : ∀ e ∈ l1, e.ref < (ensureContainer pg).2.nextRef := by
    intro e he
    apply hs.fresh
    exact List.mem_map.2 ⟨e, by rw [hpre]; exact List.mem_append_left _ he, rfl⟩
  refine ⟨?_, ?_, ?_, ?_⟩
  · obtain ⟨e0, he0, he0r⟩ := Forest.getElementById_eq_some hs.found
    have he0m : e0 ∈ (ensureContainer pg).2.doc.preorder := List.mem_of_find?_eq_some he0
    have hecm : ec ∈ (ensureContainer pg).2.doc.preorder := by
      rw [hpre]; exact List.mem_append_left _ hec
    have heq : e0 = ec :=
      List.inj_on_of_nodup_map hs.nodup he0m hecm (he0r.trans hecr.symm)
    have hp := List.find?_some he0
    rw [heq] at hp
    have := find?_append_congr (p := fun e : Element => e.idAttr == some TOAST_CONTAINER)
      (te :: trest ++ l2) l2 ⟨ec, hec, hp⟩
    unfold Forest.getElementById
    rw [hpost, htp, List.append_assoc, this, ← hpre]
    exact hs.found
  · obtain ⟨l, _, h2⟩ := Forest.childrenOf_appendChild (ensureContainer pg).1
      (toastTree (ensureContainer pg).2.nextRef (toastIdAt pg.clock) type message)
      (ensureContainer pg).2.doc hs.nodup hc
    exact ⟨l, by rw [h2, toastTree_roots]⟩
  · have hnone : l1.find? (fun e => e.ref == (ensureContainer pg).2.nextRef) = none := by
      rw [List.find?_eq_none]
      intro e he
      have := hl1 e he
      simp; omega
    unfold Forest.element
    rw [hpost, htp, List.append_assoc, List.find?_append, hnone]
    simp [List.find?, hter, htid]
  · intro hfreshId
    have h1 : (ensureContainer pg).2.doc.getElementById (toastIdAt pg.clock) = none := by
      rw [hs.other _ (toastIdAt_ne_container _)]; exact hfreshId
    have h2 : (l1 ++ l2).find? (fun e => e.idAttr == some (toastIdAt pg.clock)) = none := by
      unfold Forest.getElementById at h1
      rw [hpre] at h1
      cases hf : (l1 ++ l2).find? (fun e => e.idAttr == some (toastIdAt pg.clock)) with
      | none => rfl
      | some e => simp [hf] at h1
    unfold Forest.getElementById
    rw [hpost, htp, List.append_assoc, List.find?_append, find?_eq_none_of_append h2]
    simp [List.find?, hter, htid]

theorem Extends.refl (pg : Page) : Extends pg pg :=
  ⟨le_refl _, fun _ hx => Or.inl hx, fun h => h, fun _ h => h⟩

theorem Extends.trans {a b c : Page} (h1 : Extends a b) (h2 : Extends b c) : Extends a c :=
  ⟨le_trans h1.next_le h2.next_le,
   fun x hx => by
    rcases h2.refs x hx with h | h
    · exact h1.refs x h
    · exact Or.inr (le_trans h1.next_le h),
   fun h => h2.fresh (h1.fresh h),
   fun tm h => h2.timers tm (h1.timers tm h)⟩

theorem Extends.foldl {α : Type} (f : Page → α → Page) (hf : ∀ p x, Extends p (f p x)) :
    ∀ (l : List α) (pg : Page), Extends pg (l.foldl f pg)
  | [], pg => Extends.refl pg
  | x :: l, pg => (hf pg x).trans (Extends.foldl f hf l (f pg x))

theorem ensureContainer_extends (pg : Page) : Extends pg (ensureContainer pg).2 := by
  unfold ensureContainer
  cases h : pg.doc.getElementById TOAST_CONTAINER with
  | some c => exact Extends.refl pg
  | none =>
    refine ⟨Nat.le_succ _, ?_, ?_, fun _ h => h⟩
    · intro x hx
      simp only [Forest.refs_append, Forest.refs_node, List.mem_append] at hx
      rcases hx with hx | hx
      · exact Or.inl hx
      · simp [Forest.refs, Forest.preorder] at hx
        exact Or.inr (by simp [hx])
    · intro hf x hx
      simp only [Forest.refs_append, Forest.refs_node, List.mem_append] at hx
      rcases hx with hx | hx
      · exact Nat.lt_succ_of_lt (hf x hx)
      · simp [Forest.refs, Forest.preorder] at hx
        simp [hx]

theorem markup_extends (pg : Page) : Extends pg { pg with markupSeen := true } :=
  ⟨le_refl _, fun _ hx => Or.inl hx, fun h => h, fun _ h => h⟩

theorem showToastPlain_extends (message type : List Char) (d : Nat) (pg : Page) :
    Extends pg (showToastPlain message type d pg) := by
  have h1 := ensureContainer_extends pg
  refine h1.trans ?_
  rw [showToast_fields]
  refine ⟨Nat.le_add_right _ _, ?_, ?_, fun tm h => List.mem_append_left _ h⟩
  · intro x hx
    rcases Forest.mem_refs_appendChild _ _ _ x hx with h | h
    · exact Or.inl h
    · rw [toastTree_refs] at h
      simp only [List.mem_cons, List.mem_singleton, List.not_mem_nil, or_false] at h
      right; omega
  · intro hf x hx
    rcases Forest.mem_refs_appendChild _ _ _ x hx with h | h
    · exact Nat.lt_add_right _ (hf x h)
    · rw [toastTree_refs] at h
      simp only [List.mem_cons, List.mem_singleton, List.not_mem_nil, or_false] at h
      show x < (ensureContainer pg).2.nextRef + 4
      omega

theorem showToast_extends (message type : List Char) (d : Nat) (pg : Page) :
    Extends pg (showToast message type d pg) := by
  unfold showToast
  split
  · exact showToastPlain_extends message type d pg
  · exact markup_extends pg

theorem modalTree_refs (r : Nat) (id message : List Char) :
    (modalTree r id message).refs
      = [r, r + 1, r + 2, r + 3, r + 4, r + 5, r + 6, r + 7, r + 8, r + 9, r + 10] := rfl

theorem confirmPlain_extends (message : List Char) (callback : Nat) (pg : Page) :
    Extends pg (confirmPlain message callback pg) := by
  refine ⟨Nat.le_add_right _ _, ?_, ?_, fun tm h => h⟩
  · intro x hx
    have hx' : x ∈ (pg.doc.append (modalTree pg.nextRef (modalIdAt pg.clock) message)).refs := hx
    rw [Forest.refs_append, modalTree_refs, List.mem_append] at hx'
    rcases hx' with h | h
    · exact Or.inl h
    · simp only [List.mem_cons, List.mem_singleton, List.not_mem_nil, or_false] at h
      right; omega
  · intro hf x hx
    have hx' : x ∈ (pg.doc.append (modalTree pg.nextRef (modalIdAt pg.clock) message)).refs := hx
    rw [Forest.refs_append, modalTree_refs, List.mem_append] at hx'
    show x < pg.nextRef + 11
    rcases hx' with h | h
    · exact Nat.lt_add_right _ (hf x h)
    · simp only [List.mem_cons, List.mem_singleton, List.not_mem_nil, or_false] at h
      omega

theorem confirm_extends (message : List Char) (callback : Nat) (pg : Page) :
    Extends pg (confirm message callback pg) := by
  unfold confirm
  split
  · exact confirmPlain_extends message callback pg
  · exact markup_extends pg

theorem console_extends (pg : Page) (c : List ConsoleLine) :
    Extends pg { pg with console := c } :=
  ⟨le_refl _, fun _ hx => Or.inl hx, fun h => h, fun _ h => h⟩

theorem runGlobal_extends (g : GlobalHandler) (payload : Nat) (pg : Page) :
    Extends pg (runGlobal g payload pg) := by
  cases g with
  | globalError =>
    show Extends pg (showToast ERROR_MESSAGE "danger".toList 5000
      { pg with console := pg.console ++ [ConsoleLine.mk "Global error:" payload] })
    exact (console_extends pg _).trans (showToast_extends ERROR_MESSAGE "danger".toList 5000 _)
  | globalRejection =>
    show Extends pg (showToast REJECTION_MESSAGE "danger".toList 5000
      { pg with
        console := pg.console ++ [ConsoleLine.mk "Unhandled promise rejection:" payload] })
    exact (console_extends pg _).trans
      (showToast_extends REJECTION_MESSAGE "danger".toList 5000 _)

theorem dispatchWindow_extends (type : WindowEventType) (payload : Nat) (pg : Page) :
    Extends pg (dispatchWindow type payload pg) := by
  unfold dispatchWindow
  exact Extends.foldl (fun p (l : WindowEventType × GlobalHandler) => runGlobal l.2 payload p)
    (fun p l => runGlobal_extends l.2 payload p) _ pg

theorem remove_extends (pg : Page) (el : Nat) :
    Extends pg { pg with doc := pg.doc.remove el } :=
  ⟨le_refl _, fun x hx => Or.inl (Forest.mem_refs_remove el pg.doc x hx).1,
   fun hf x hx => hf x (Forest.mem_refs_remove el pg.doc x hx).1, fun _ h => h⟩

theorem runHandler_extends (h : Handler) (pg : Page) : Extends pg (runHandler h pg) := by
  cases h with
  | confirmClick cb modal =>
    exact ⟨le_refl _, fun _ hx => Or.inl hx, fun h => h, fun _ h => h⟩
  | removeModal modalId =>
    have e : runHandler (.removeModal modalId) pg =
        match pg.doc.getElementById modalId with
        | some el => { pg with doc := pg.doc.remove el }
        | none => dispatchWindow .error 0 pg := rfl
    rw [e]
    cases pg.doc.getElementById modalId with
    | some el => exact remove_extends pg el
    | none => exact dispatchWindow_extends _ _ pg

theorem dispatch_extends (type : EventType) (target : Nat) (pg : Page) :
    Extends pg (dispatch type target pg) := by
  unfold dispatch
  exact Extends.foldl (fun p (l : Listener) => runHandler l.handler p)
    (fun p l => runHandler_extends l.handler p) _ pg

theorem Action.apply_extends (a : Action) (pg : Page) : Extends pg (a.apply pg) := by
  cases a with
  | showToast m ty d => exact showToast_extends m ty d pg
  | confirm m cb => exact confirm_extends m cb pg
  | event ty target => exact dispatch_extends ty target pg
  | windowEvent ty payload => exact dispatchWindow_extends ty payload pg

theorem Pending.of_extends {r : Nat} {due : Int} {pg pg' : Page} (h : Pending r due pg)
    (he : Extends pg pg') : Pending r due pg' :=
  ⟨lt_of_lt_of_le h.lt he.next_le, he.fresh h.fresh, fun hr => by
    rcases he.refs r hr with h1 | h1
    · exact he.timers _ (h.timer h1)
    · exact absurd h.lt (by omega)⟩

theorem runTimer_frame (x : Timer) (p : Page) :
    (runTimer x p).nextRef = p.nextRef ∧ (runTimer x p).timers = p.timers ∧
      ∀ y ∈ (runTimer x p).doc.refs, y ∈ p.doc.refs := by
  cases x with
  | removeToast el =>
    cases el with
    | none => exact ⟨rfl, rfl, fun _ h => h⟩
    | some el =>
      have e : runTimer (.removeToast (some el)) p =
          if p.doc.contains el then { p with doc := p.doc.remove el } else p := rfl
      rw [e]
      by_cases hc : p.doc.contains el = true
      · rw [if_pos hc]
        exact ⟨rfl, rfl, fun y hy => (Forest.mem_refs_remove el p.doc y hy).1⟩
      · rw [if_neg hc]
        exact ⟨rfl, rfl, fun _ h => h⟩

theorem runTimer_removes (r : Nat) (p : Page) :
    r ∉ (runTimer (.removeToast (some r)) p).doc.refs := by
  have e : runTimer (.removeToast (some r)) p =
      if p.doc.contains r then { p with doc := p.doc.remove r } else p := rfl
  rw [e]
  by_cases hc : p.doc.contains r = true
  · rw [if_pos hc]
    exact Forest.not_mem_refs_remove r p.doc
  · rw [if_neg hc]
    exact fun h => hc ((Forest.contains_iff r p.doc).2 h)

theorem foldl_runTimer_frame :
    ∀ (l : List (Int × Timer)) (p : Page),
      (l.foldl (fun p x => runTimer x.2 p) p).nextRef = p.nextRef ∧
      (l.foldl (fun p x => runTimer x.2 p) p).timers = p.timers ∧
      ∀ y ∈ (l.foldl (fun p x => runTimer x.2 p) p).doc.refs, y ∈ p.doc.refs
  | [], p => ⟨rfl, rfl, fun _ h => h⟩
  | x :: l, p => by
    have h1 := runTimer_frame x.2 p
    have h2 := foldl_runTimer_frame l (runTimer x.2 p)
    exact ⟨h2.1.trans h1.1, h2.2.1.trans h1.2.1, fun y hy => h1.2.2 y (h2.2.2 y hy)⟩

theorem foldl_runTimer_removes (r : Nat) (due : Int) :
    ∀ (l : List (Int × Timer)) (p : Page), (due, Timer.removeToast (some r)) ∈ l →
      r ∉ (l.foldl (fun p x => runTimer x.2 p) p).doc.refs
  | [], _, h => by simp at h
  | x :: l, p, h => by
    rcases List.mem_cons.1 h with h | h
    · intro hr
      have := (foldl_runTimer_frame l (runTimer x.2 p)).2.2 r hr
      rw [← h] at this
      exact runTimer_removes r p this
    · exact foldl_runTimer_removes r due l _ h

theorem mem_dueTimers {t : Int} {pg : Page} {tm : Int × Timer} :
    tm ∈ dueTimers t pg ↔ tm ∈ pg.timers ∧ tm.1 ≤ t := by
  unfold dueTimers
  rw [(List.perm_insertionSort _ _).mem_iff, List.mem_filter]
  simp

theorem advance_fields (t : Int) (pg : Page) :
    (advance t pg).doc = ((dueTimers t pg).foldl (fun p x => runTimer x.2 p)
      { pg with timers := pg.timers.filter (fun x => !decide (x.1 ≤ t)) }).doc ∧
    (advance t pg).nextRef = ((dueTimers t pg).foldl (fun p x => runTimer x.2 p)
      { pg with timers := pg.timers.filter (fun x => !decide (x.1 ≤ t)) }).nextRef ∧
    (advance t pg).timers = ((dueTimers t pg).foldl (fun p x => runTimer x.2 p)
      { pg with timers := pg.timers.filter (fun x => !decide (x.1 ≤ t)) }).timers :=
  ⟨rfl, rfl, rfl⟩

theorem advance_pending {r : Nat} {due : Int} {pg : Page} (h : Pending r due pg) (t : Int) :
    Pending r due (advance t pg) ∧ (due ≤ t → r ∉ (advance t pg).doc.refs) := by
  obtain ⟨hd, hn, ht⟩ := advance_fields t pg
  have hfr := foldl_runTimer_frame (dueTimers t pg)
    { pg with timers := pg.timers.filter (fun x => !decide (x.1 ≤ t)) }
  have hgone : due ≤ t → r ∉ (advance t pg).doc.refs := by
    intro hle hr
    rw [hd] at hr
    have hr0 : r ∈ pg.doc.refs := hfr.2.2 r hr
    have hmem : (due, Timer.removeToast (some r)) ∈ dueTimers t pg :=
      mem_dueTimers.2 ⟨h.timer hr0, hle⟩
    exact foldl_runTimer_removes r due _ _ hmem hr
  refine ⟨⟨?_, ?_, ?_⟩, hgone⟩
  · rw [hn, hfr.1]; exact h.lt
  · intro x hx
    rw [hd] at hx
    rw [hn, hfr.1]
    exact h.fresh x (hfr.2.2 x hx)
  · intro hr
    have hnd : ¬ (due ≤ t) := fun hle => hgone hle hr
    rw [hd] at hr
    have hr0 : r ∈ pg.doc.refs := hfr.2.2 r hr
    rw [ht, hfr.2.1]
    simp only [List.mem_filter]
    exact ⟨h.timer hr0, by simpa using hnd⟩

theorem run_pending {r : Nat} {due : Int} :
    ∀ (actions : List (Int × Action)) (pg : Page), Pending r due pg →
      Pending r due (run actions pg)
  | [], _, h => h
  | a :: l, _, h =>
    run_pending l _ (((advance_pending h a.1).1).of_extends (Action.apply_extends a.2 _))

theorem showToast_pending (pg : Page) (hwf : pg.WF) (message type : List Char) (d : Nat)
    (hid : pg.doc.getElementById (toastIdAt pg.clock) = none) :
    Pending (toastRef pg) (pg.clock + d + 1000) (showToastPlain message type d pg) := by
  have hs := insert_spec pg hwf message type
  have hex := showToastPlain_extends message type d pg
  refine ⟨?_, hex.fresh hwf.2, fun _ => ?_⟩
  · rw [showToast_fields]
    show (ensureContainer pg).2.nextRef < (ensureContainer pg).2.nextRef + 4
    omega
  · rw [showToast_fields]
    simp only [hs.lookup hid]
    exact List.mem_append_right _ (List.mem_singleton.2 rfl)

/-! ### Well-formedness is preserved -/

theorem Forest.refs_remove_sublist (r : Nat) :
    ∀ f : Forest, (Forest.remove r f).refs.Sublist f.refs
  | .nil => List.Sublist.refl _
  | .node e ch next => by
    rw [Forest.refs_node]
    by_cases h0 : e.ref = r
    · simp only [Forest.remove, h0, if_true]
      exact ((Forest.refs_remove_sublist r next).trans
        (List.sublist_append_right _ _)).trans (List.sublist_cons_self _ _)
    · simp only [Forest.remove, h0, if_false, Forest.refs_node]
      exact List.Sublist.cons₂ _
        ((Forest.refs_remove_sublist r ch).append (Forest.refs_remove_sublist r next))

theorem Forest.nodup_appendChild (c : Nat) (sub f : Forest) (hnd : f.refs.Nodup)
    (hc : c ∈ f.refs) (hsub : sub.refs.Nodup) (hdis : ∀ x ∈ f.refs, x ∉ sub.refs) :
    (Forest.appendChild c sub f).refs.Nodup := by
  obtain ⟨l1, l2, hpre, _, hpost⟩ := Forest.preorder_appendChild c sub f hnd hc
  have hf : f.refs = l1.map (·.ref) ++ l2.map (·.ref) := by
    simp [Forest.refs, hpre]
  have hr : (Forest.appendChild c sub f).refs
      = l1.map (·.ref) ++ (sub.refs ++ l2.map (·.ref)) := by
    simp [Forest.refs, hpost]
  rw [hf] at hnd hdis
  have h := List.nodup_append.1 hnd
  rw [hr]
  refine List.nodup_append.2 ⟨h.1, List.nodup_append.2 ⟨hsub, h.2.1, ?_⟩, ?_⟩
  · intro x hx hx2
    exact hdis x (List.mem_append_right _ hx2) hx
  · intro x hx hx2
    rcases List.mem_append.1 hx2 with h3 | h3
    · exact hdis x (List.mem_append_left _ hx) h3
    · exact h.2.2 hx h3

theorem showToastPlain_wf (message type : List Char) (d : Nat) (pg : Page) (hwf : pg.WF) :
    (showToastPlain message type d pg).WF := by
  have hs := ensureContainer_spec pg hwf
  refine ⟨?_, (showToastPlain_extends message type d pg).fresh hwf.2⟩
  rw [showToast_fields]
  refine Forest.nodup_appendChild _ _ _ hs.nodup (Forest.mem_refs_of_getElementById hs.found)
    ?_ ?_
  · rw [toastTree_refs]; simp
  · intro x hx
    have := hs.fresh x hx
    rw [toastTree_refs]
    simp only [List.mem_cons, List.mem_singleton, List.not_mem_nil, or_false]
    omega

theorem showToast_wf (message type : List Char) (d : Nat) (pg : Page) (hwf : pg.WF) :
    (showToast message type d pg).WF := by
  unfold showToast
  split
  · exact showToastPlain_wf message type d pg hwf
  · exact hwf

theorem confirmPlain_wf (message : List Char) (callback : Nat) (pg : Page) (hwf : pg.WF) :
    (confirmPlain message callback pg).WF := by
  refine ⟨?_, (confirmPlain_extends message callback pg).fresh hwf.2⟩
  show (pg.doc.append (modalTree pg.nextRef (modalIdAt pg.clock) message)).refs.Nodup
  rw [Forest.refs_append, modalTree_refs]
  refine List.nodup_append.2 ⟨hwf.1, by simp, ?_⟩
  intro x hx hx2
  have := hwf.2 x hx
  simp only [List.mem_cons, List.mem_singleton, List.not_mem_nil, or_false] at hx2
  omega

theorem confirm_wf (message : List Char) (callback : Nat) (pg : Page) (hwf : pg.WF) :
    (confirm message callback pg).WF := by
  unfold confirm
  split
  · exact confirmPlain_wf message callback pg hwf
  · exact hwf

theorem remove_wf (pg : Page) (el : Nat) (hwf : pg.WF) :
    Page.WF { pg with doc := pg.doc.remove el } :=
  ⟨hwf.1.sublist (Forest.refs_remove_sublist el pg.doc),
   fun x hx => hwf.2 x (Forest.mem_refs_remove el pg.doc x hx).1⟩

theorem foldl_wf {α : Type} (f : Page → α → Page) (hf : ∀ p x, p.WF → (f p x).WF) :
    ∀ (l : List α) (pg : Page), pg.WF → (l.foldl f pg).WF
  | [], _, h => h
  | x :: l, pg, h => foldl_wf f hf l (f pg x) (hf pg x h)

theorem runGlobal_wf (g : GlobalHandler) (payload : Nat) (pg : Page) (hwf : pg.WF) :
    (runGlobal g payload pg).WF := by
  cases g with
  | globalError =>
    exact showToast_wf ERROR_MESSAGE "danger".toList 5000
      { pg with console := pg.console ++ [⟨"Global error:", payload⟩] } hwf
  | globalRejection =>
    exact showToast_wf REJECTION_MESSAGE "danger".toList 5000
      { pg with console := pg.console ++ [⟨"Unhandled promise rejection:", payload⟩] } hwf

theorem dispatchWindow_wf (type : WindowEventType) (payload : Nat) (pg : Page)
    (hwf : pg.WF) : (dispatchWindow type payload pg).WF := by
  unfold dispatchWindow
  exact foldl_wf (fun p (l : WindowEventType × GlobalHandler) => runGlobal l.2 payload p)
    (fun p l h => runGlobal_wf l.2 payload p h) _ pg hwf

theorem runHandler_wf (h : Handler) (pg : Page) (hwf : pg.WF) : (runHandler h pg).WF := by
  cases h with
  | confirmClick cb modal => exact hwf
  | removeModal modalId =>
    have e : runHandler (.removeModal modalId) pg =
        match pg.doc.getElementById modalId with
        | some el => { pg with doc := pg.doc.remove el }
        | none => dispatchWindow .error 0 pg := rfl
    rw [e]
    cases pg.doc.getElementById modalId with
    | some el => exact remove_wf pg el hwf
    | none => exact dispatchWindow_wf _ _ pg hwf

theorem dispatch_wf (type : EventType) (target : Nat) (pg : Page) (hwf : pg.WF) :
    (dispatch type target pg).WF := by
  unfold dispatch
  exact foldl_wf (fun p (l : Listener) => runHandler l.handler p)
    (fun p l h => runHandler_wf l.handler p h) _ pg hwf

theorem runTimer_wf (x : Timer) (pg : Page) (hwf : pg.WF) : (runTimer x pg).WF := by
  cases x with
  | removeToast el =>
    cases el with
    | none => exact hwf
    | some el =>
      have e : runTimer (.removeToast (some el)) pg =
          if pg.doc.contains el then { pg with doc := pg.doc.remove el } else pg := rfl
      rw [e]
      by_cases hc : pg.doc.contains el = true
      · rw [if_pos hc]; exact remove_wf pg el hwf
      · rw [if_neg hc]; exact hwf

theorem advance_wf (t : Int) (pg : Page) (hwf : pg.WF) : (advance t pg).WF :=
  foldl_wf (fun p (x : Int × Timer) => runTimer x.2 p) (fun p x h => runTimer_wf x.2 p h)
    (dueTimers t pg) { pg with timers := pg.timers.filter (fun x => !decide (x.1 ≤ t)) } hwf

theorem Action.apply_wf (a : Action) (pg : Page) (hwf : pg.WF) : (a.apply pg).WF := by
  cases a with
  | showToast m ty d => exact showToast_wf m ty d pg hwf
  | confirm m cb => exact confirm_wf m cb pg hwf
  | event ty target => exact dispatch_wf ty target pg hwf
  | windowEvent ty payload => exact dispatchWindow_wf ty payload pg hwf

/-- Every page reached from a well-formed page is well-formed; in particular every page
reached from an empty page. -/
theorem run_wf (actions : List (Int × Action)) (pg : Page) (hwf : pg.WF) :
    (run actions pg).WF :=
  foldl_wf (fun p (a : Int × Action) => a.2.apply (advance a.1 p))
    (fun p a h => Action.apply_wf a.2 _ (advance_wf a.1 p h)) actions pg hwf

theorem emptyPage_wf (clock : Int) : (emptyPage clock).WF :=
  ⟨List.nodup_nil, fun _ h => by simp [emptyPage, Forest.refs, Forest.preorder] at h⟩

/-! ### The toast is transient -/

/-- C3, amended: on a well-formed page, for a `message` and a `type` that are plain
text (free of markup), right after `Utils.showToast(message, type, d)` the element with
id `toast-container` has the inserted element as its last child, and that element
carries the id `toast-` followed by the decimal clock reading; if no element with that
id was in the document before the call, then whatever the script does afterwards (as
long as it hands no markup to the HTML parser), at every time at or after `d + 1000`
milliseconds from the call (the delay handed to `setTimeout`) the inserted element is no
longer in the document. -/
theorem showToast_transient (pg : Page) (message type : List Char) (d : Nat)
    (hwf : pg.WF) (hclean : pg.markupSeen = false) (hmessage : isPlainText message = true)
    (htype : isPlainText type = true) :
    ((showToast message type d pg).markupSeen = false ∧
      (showToast message type d pg).doc.getElementById TOAST_CONTAINER
        = some (containerRef pg) ∧
      (∃ l, (showToast message type d pg).doc.childrenOf (containerRef pg)
        = some (l ++ [toastRef pg])) ∧
      ((showToast message type d pg).doc.element (toastRef pg)).map (·.idAttr)
        = some (some (toastIdAt pg.clock)) ∧
      (0 ≤ pg.clock → toastIdAt pg.clock = "toast-".toList ++ decimal pg.clock.toNat)) ∧
    (pg.doc.getElementById (toastIdAt pg.clock) = none →
      ∀ (actions : List (Int × Action)) (t : Int), pg.clock + d + 1000 ≤ t →
        (advance t (run actions (showToast message type d pg))).markupSeen = false →
        toastRef pg ∉ (advance t (run actions (showToast message type d pg))).doc.refs) := by
  have hs := insert_spec pg hwf message type
  rw [showToast_of_plain hmessage htype]
  refine ⟨⟨?_, ?_, ?_, ?_, ?_⟩, ?_⟩
  · rw [showToast_fields]
    exact (ensureContainer_markupSeen pg).trans hclean
  · rw [showToast_fields]; exact hs.containerFound
  · rw [showToast_fields]; exact hs.lastChild
  · rw [showToast_fields]; exact hs.hasId
  · intro hc
    obtain ⟨n, hn⟩ := Int.eq_ofNat_of_zero_le hc
    rw [toastIdAt, hn]; rfl
  · intro hid actions t ht _
    exact (advance_pending (run_pending actions _
      (showToast_pending pg hwf message type d hid)) t).2 ht

theorem showToastPlain_console (message type : List Char) (d : Nat) (pg : Page)
    (c : List ConsoleLine) :
    showToastPlain message type d { pg with console := c }
      = { showToastPlain message type d pg with console := c } := by
  unfold showToastPlain ensureContainer
  cases h : pg.doc.getElementById TOAST_CONTAINER <;> simp [h]

theorem showToast_console (message type : List Char) (d : Nat) (pg : Page)
    (c : List ConsoleLine) :
    showToast message type d { pg with console := c }
      = { showToast message type d pg with console := c } := by
  unfold showToast
  split
  · exact showToastPlain_console message type d pg c
  · rfl

/-- C5: once the initialiser has installed the global listeners, every `error` event
on `window` makes the handler log and call `Utils.showToast` with exactly the text
`页面发生错误，请刷新页面重试`, the type `danger` and the duration 5000, and every
`unhandledrejection` event with exactly the text `操作失败，请稍后重试`, `danger` and
5000; both texts are plain text, so the toast is inserted as modelled; apart from the
console line, the resulting page is the same for any two events of the same kind; before
the initialiser has run the events show nothing. -/
theorem global_handlers_show_generic_toast (pg : Page) (hnone : pg.windowListeners = []) :
    (∀ e : Nat, dispatchWindow .error e (initialise pg) =
      showToast "页面发生错误，请刷新页面重试".toList "danger".toList 5000
        { initialise pg with console := pg.console ++ [⟨"Global error:", e⟩] }) ∧
    (∀ e : Nat, dispatchWindow .unhandledrejection e (initialise pg) =
      showToast "操作失败，请稍后重试".toList "danger".toList 5000
        { initialise pg with
          console := pg.console ++ [⟨"Unhandled promise rejection:", e⟩] }) ∧
    (isPlainText "页面发生错误，请刷新页面重试".toList = true ∧
      isPlainText "操作失败，请稍后重试".toList = true ∧
      isPlainText "danger".toList = true) ∧
    (∀ (type : WindowEventType) (e1 e2 : Nat),
      { dispatchWindow type e1 (initialise pg) with console := [] }
        = { dispatchWindow type e2 (initialise pg) with console := [] }) ∧
    (∀ (type : WindowEventType) (e : Nat), dispatchWindow type e pg = pg) := by
  have h1 : ∀ e : Nat, dispatchWindow .error e (initialise pg) =
      showToast ERROR_MESSAGE "danger".toList 5000
        { initialise pg with console := pg.console ++ [⟨"Global error:", e⟩] } := by
    intro e
    simp [dispatchWindow, initialise, hnone, runGlobal, showErrorToast]
  have h2 : ∀ e : Nat, dispatchWindow .unhandledrejection e (initialise pg) =
      showToast REJECTION_MESSAGE "danger".toList 5000
        { initialise pg with
          console := pg.console ++ [⟨"Unhandled promise rejection:", e⟩] } := by
    intro e
    simp [dispatchWindow, initialise, hnone, runGlobal, showErrorToast]
  have k : ∀ (m : List Char) (c : List ConsoleLine),
      { showToast m "danger".toList 5000 { initialise pg with console := c } with
          console := [] }
        = { showToast m "danger".toList 5000 (initialise pg) with console := [] } := by
    intro m c
    exact (congrArg (fun p : Page => { p with console := [] })
      (showToast_console m "danger".toList 5000 (initialise pg) c)).trans rfl
  refine ⟨h1, h2, ⟨by decide, by decide, by decide⟩, ?_, ?_⟩
  · intro type e1 e2
    cases type with
    | error =>
      rw [h1 e1, h1 e2]
      exact (k ERROR_MESSAGE _).trans (k ERROR_MESSAGE _).symm
    | unhandledrejection =>
      rw [h2 e1, h2 e2]
      exact (k REJECTION_MESSAGE _).trans (k REJECTION_MESSAGE _).symm
  · intro type e
    simp [dispatchWindow, hnone]

theorem global_handlers_show_generic_toast_witness :
    (emptyPage 1000).windowListeners = [] ∧
    (dispatchWindow .error 7 (initialise (emptyPage 1000))).toastShows = [(some 1, 5000)] ∧
    ((dispatchWindow .error 7 (initialise (emptyPage 1000))).doc.element 1).map (·.idAttr)
      = some (some "toast-1000".toList) ∧
    ((dispatchWindow .error 7 (initialise (emptyPage 1000))).doc.element 1).map (·.className)
      = some "toast align-items-center text-white bg-danger border-0".toList ∧
    ((dispatchWindow .error 7 (initialise (emptyPage 1000))).doc.element 3).map (·.text)
      = some "页面发生错误，请刷新页面重试".toList ∧
    ((dispatchWindow .unhandledrejection 7 (initialise (emptyPage 1000))).doc.element 3).map
        (·.text) = some "操作失败，请稍后重试".toList :=
  ⟨rfl,
    by rw [(global_handlers_show_generic_toast (emptyPage 1000) rfl).1 7]; decide,
    by rw [(global_handlers_show_generic_toast (emptyPage 1000) rfl).1 7]; decide,
    by rw [(global_handlers_show_generic_toast (emptyPage 1000) rfl).1 7]; decide,
    by rw [(global_handlers_show_generic_toast (emptyPage 1000) rfl).1 7]; decide,
    by rw [(global_handlers_show_generic_toast (emptyPage 1000) rfl).2.1 7]; decide⟩

/-- C3 as stated fails: for a toast shown at clock reading 1000 with duration 3000 on
an empty page, the inserted element (node 1) is still in the document at time 4000, that
is `d` milliseconds after the call, and at 4999; it is gone only from 5000 on. -/
theorem showToast_still_present_at_duration :
    toastRef (emptyPage 1000) = 1 ∧
    (1000 : Int) + 3000 ≤ 4000 ∧
    1 ∈ (advance 4000 (showToast "hi".toList "info".toList 3000 (emptyPage 1000))).doc.refs ∧
    1 ∈ (advance 4999 (showToast "hi".toList "info".toList 3000 (emptyPage 1000))).doc.refs ∧
    1 ∉ (advance 5000 (showToast "hi".toList "info".toList 3000 (emptyPage 1000))).doc.refs := by
  decide

theorem showToast_transient_witness :
    (emptyPage 1000).WF ∧ (emptyPage 1000).markupSeen = false ∧
    isPlainText "hi".toList = true ∧ isPlainText "info".toList = true ∧
    (emptyPage 1000).doc.getElementById (toastIdAt (emptyPage 1000).clock) = none ∧
    (advance 5000 (run [(2000, .confirm "sure".toList 1)]
        (showToast "hi".toList "info".toList 3000 (emptyPage 1000)))).markupSeen = false ∧
    toastRef (emptyPage 1000) ∉
      (advance 5000 (run [(2000, .confirm "sure".toList 1)]
        (showToast "hi".toList "info".toList 3000 (emptyPage 1000)))).doc.refs :=
  ⟨⟨by decide, by decide⟩, by decide, by decide, by decide, by decide, by decide,
    (showToast_transient (emptyPage 1000) "hi".toList "info".toList 3000
      ⟨by decide, by decide⟩ (by decide) (by decide) (by decide)).2 (by decide)
      [(2000, .confirm "sure".toList 1)] 5000 (by decide) (by decide)⟩

/-- C4: two `Utils.showToast` calls at the same clock reading 1000 leave two elements
with the id `toast-1000` in the document; the second call looks up, shows and schedules
the removal of the first element (node 1) instead of its own (node 5), which therefore
is never shown and is still in the document long after both timers ran. Two
`Utils.confirm` calls leave two elements with the id `confirm-btn`, and at equal clock
readings two modals with the same id. -/
theorem toast_ids_collide_within_one_millisecond :
    (run [(1000, .showToast "a".toList "info".toList 3000),
          (1000, .showToast "b".toList "info".toList 3000)] (emptyPage 1000)).doc.idCount
        (toastIdAt 1000) = 2 ∧
    (run [(1000, .showToast "a".toList "info".toList 3000),
          (1000, .showToast "b".toList "info".toList 3000)] (emptyPage 1000)).toastShows
        = [(some 1, 3000), (some 1, 3000)] ∧
    (run [(1000, .showToast "a".toList "info".toList 3000),
          (1000, .showToast "b".toList "info".toList 3000)] (emptyPage 1000)).timers
        = [(5000, .removeToast (some 1)), (5000, .removeToast (some 1))] ∧
    (advance 1000000 (run [(1000, .showToast "a".toList "info".toList 3000),
          (1000, .showToast "b".toList "info".toList 3000)] (emptyPage 1000))).doc.refs
        = [0, 5, 6, 7, 8] ∧
    (run [(1000, .confirm "x".toList 1), (2000, .confirm "y".toList 2)]
        (emptyPage 1000)).doc.idCount CONFIRM_BTN = 2 ∧
    (run [(1000, .confirm "x".toList 1), (1000, .confirm "y".toList 2)]
        (emptyPage 1000)).doc.idCount (modalIdAt 1000) = 2 := by
  decide

/-- C10: after `Utils.confirm(x, callback 1)` at 1000 and `Utils.confirm(y, callback 2)`
at 2000 with the first modal still open, the click listener of the second call sits on
the confirm button of the first modal (node 10), not on its own (node 21): a click on
node 10 invokes both callbacks, a click on node 21 invokes none. At equal clock readings
the `hidden` event of the first modal removes both modals. -/
theorem confirm_callback_bound_to_earlier_modal :
    (run [(1000, .confirm "x".toList 1), (2000, .confirm "y".toList 2)]
        (emptyPage 1000)).listeners
      = [⟨10, .click, .confirmClick 1 (some 0)⟩,
         ⟨0, .hiddenModal, .removeModal (modalIdAt 1000)⟩,
         ⟨10, .click, .confirmClick 2 (some 11)⟩,
         ⟨11, .hiddenModal, .removeModal (modalIdAt 2000)⟩] ∧
    (run [(1000, .confirm "x".toList 1), (2000, .confirm "y".toList 2),
          (3000, .event .click 10)] (emptyPage 1000)).callbackLog = [(1, true), (2, true)] ∧
    (run [(1000, .confirm "x".toList 1), (2000, .confirm "y".toList 2),
          (3000, .event .click 21)] (emptyPage 1000)).callbackLog = [] ∧
    (run [(1000, .confirm "x".toList 1), (1000, .confirm "y".toList 2),
          (3000, .event .hiddenModal 0)] (emptyPage 1000)).doc.refs = [] := by
  decide


end MainJs
